import Mathlib

/-!
Verification of the text-highlighter extension: a shallow embedding of the
address codec (generateXPath / getElementByXPath), the highlight store
(HighlightStorage), the restoration engine (renderHighlights /
highlightTextInElement) and selection capture (handleMouseUp), together with
theorems settling the specification claims.

The DOM is embedded as a tree of text nodes and element nodes; JavaScript
strings are embedded as Lean strings (character = one abstract code unit);
JavaScript string primitives (substring, trim) are embedded by functions with
the same clamp/swap semantics.
-/

/-- Whitespace test used by the embedding of `String.prototype.trim`
(the common ASCII whitespace characters). -/
def isJsWs (c : Char) : Bool :=
  c = ' ' ∨ c = '\t' ∨ c = '\n' ∨ c = '\r'

/-- Embedding of JavaScript `s.trim()`: strips leading and trailing
whitespace. -/
def jsTrim (s : String) : String :=
  String.mk (((s.data.dropWhile isJsWs).reverse.dropWhile isJsWs).reverse)

/-- Embedding of JavaScript `s.substring(a, b)`: both indexes are clamped to
`[0, s.length]` and swapped when `a > b`. -/
def jsSubstring (s : String) (a b : Nat) : String :=
  let len := s.data.length
  let a' := min a len
  let b' := min b len
  let lo := min a' b'
  let hi := max a' b'
  String.mk ((s.data.drop lo).take (hi - lo))

/-- Embedding of the DOM subtrees the content script manipulates: a node is a
text node (`Node.TEXT_NODE`) or an element (`Node.ELEMENT_NODE`) with a tag
name, attributes (including `class`, `data-highlight-id`, `title` and the
inline style properties, all as string pairs) and a child list. Element tag
names are stored in lower case, playing the role of `localName` (the source's
`nodeName.toLowerCase()`). -/
inductive DomNode where
  | text (s : String)
  | elem (tag : String) (attrs : List (String × String)) (children : List DomNode)

mutual

/-- Boolean equality on DOM trees (structural). -/
def DomNode.beq : DomNode → DomNode → Bool
  | .text s, .text s' => s == s'
  | .elem t a cs, .elem t' a' cs' => t == t' && a == a' && DomNode.beqList cs cs'
  | _, _ => false

def DomNode.beqList : List DomNode → List DomNode → Bool
  | [], [] => true
  | c :: cs, c' :: cs' => DomNode.beq c c' && DomNode.beqList cs cs'
  | _, _ => false

end

mutual

theorem DomNode.beq_iff : ∀ a b : DomNode, DomNode.beq a b = true ↔ a = b
  | .text _, .text _ => by simp [DomNode.beq]
  | .text _, .elem _ _ _ => by simp [DomNode.beq]
  | .elem _ _ _, .text _ => by simp [DomNode.beq]
  | .elem _ _ cs, .elem _ _ cs' => by
    simp [DomNode.beq, DomNode.beqList_iff cs cs', and_assoc]

theorem DomNode.beqList_iff : ∀ a b : List DomNode, DomNode.beqList a b = true ↔ a = b
  | [], [] => by simp [DomNode.beqList]
  | [], _ :: _ => by simp [DomNode.beqList]
  | _ :: _, [] => by simp [DomNode.beqList]
  | c :: cs, c' :: cs' => by
    simp [DomNode.beqList, DomNode.beq_iff c c', DomNode.beqList_iff cs cs']

end

instance : DecidableEq DomNode := fun a b => decidable_of_iff _ (DomNode.beq_iff a b)

/-- Value of an attribute on an element (`none` on a text node or when the
attribute is absent). -/
def DomNode.getAttr (n : DomNode) (name : String) : Option String :=
  match n with
  | .text _ => none
  | .elem _ attrs _ => (attrs.find? (fun p => p.1 = name)).map Prod.snd

/-- Children of a node (a text node has none). -/
def DomNode.childrenOf : DomNode → List DomNode
  | .text _ => []
  | .elem _ _ cs => cs

/-- Test whether a node is an element with the given tag name. -/
def DomNode.tagIs (t : String) : DomNode → Bool
  | .text _ => false
  | .elem t' _ _ => t' = t

mutual

/-- Concatenated text content of a subtree: the document-order concatenation
of all text nodes below (and at) the node, exactly the stream the restoration
walk in `highlightTextInElement` accumulates with its running offset. -/
def textContent : DomNode → String
  | .text s => s
  | .elem _ _ cs => textContentList cs

def textContentList : List DomNode → String
  | [] => ""
  | c :: cs => textContent c ++ textContentList cs

end

/-- CSS class token identifying highlight markers (HIGHLIGHT_CLASS in the
content script). -/
def HIGHLIGHT_CLASS : String := "text-highlight-extension"

/-- Splits a character list on a separator character (the token split used
for class attribute values). -/
def splitOnChar (sep : Char) : List Char → List (List Char)
  | [] => [[]]
  | c :: cs =>
    if c = sep then [] :: splitOnChar sep cs
    else
      match splitOnChar sep cs with
      | t :: ts => (c :: t) :: ts
      | [] => [[c]]

/-- Test whether an element carries a given class token, embedding
`classList.contains` / the `.class` selector of `querySelectorAll` (the class
attribute is split on spaces into tokens). -/
def DomNode.hasClass (n : DomNode) (cls : String) : Bool :=
  match n.getAttr "class" with
  | none => false
  | some v => (splitOnChar ' ' v.data).contains cls.data

/-- Test whether a node is a highlight marker element
(an element matching the selector for HIGHLIGHT_CLASS). -/
def isMarker (n : DomNode) : Bool := n.hasClass HIGHLIGHT_CLASS

mutual

/-- Number of marker elements in a subtree, the node itself included. -/
def countMarkers : DomNode → Nat
  | .text _ => 0
  | .elem t a cs => (if isMarker (.elem t a cs) then 1 else 0) + countMarkersList cs

def countMarkersList : List DomNode → Nat
  | [] => 0
  | c :: cs => countMarkers c + countMarkersList cs

end

/-- Node located by a path of child indexes from a root node (the embedding's
stand-in for a DOM node reference: a node is identified by its position). -/
def nodeAt : DomNode → List Nat → Option DomNode
  | n, [] => some n
  | .text _, _ :: _ => none
  | .elem _ _ cs, i :: p =>
    match cs[i]? with
    | some c => nodeAt c p
    | none => none

mutual

/-- Replacement of the subtree at a path (in-place DOM mutation on the
embedded tree). Paths that do not resolve leave the tree unchanged. -/
def replaceAt : DomNode → List Nat → DomNode → DomNode
  | _, [], e => e
  | .text s, _ :: _, _ => .text s
  | .elem t a cs, i :: p, e => .elem t a (replaceAtList cs i p e)

def replaceAtList : List DomNode → Nat → List Nat → DomNode → List DomNode
  | [], _, _, _ => []
  | c :: cs, 0, p, e => replaceAt c p e :: cs
  | c :: cs, i + 1, p, e => c :: replaceAtList cs i p e

end

/-- One step of a structural address: a tag name together with the 1-based
index of the element among its preceding same-tag element siblings — the
content of one serialized path segment `tag[k]`. -/
abbrev Segment := String × Nat

/-- Bump applied while walking back over a skipped preceding sibling when
encoding: if the sibling is an element with the same tag name as the segment
being built, its 1-based index grows by one (the source's inner
`while (sibling)` counting loop). -/
def bumpSeg (c : DomNode) : List Segment → List Segment
  | (t, k) :: rest => (t, if DomNode.tagIs t c then k + 1 else k) :: rest
  | [] => []

mutual

/-- Embedding of the upward walk of `generateXPath` (storage.ts), computed
top-down: segments for the node reached from this node by the given child
index path.  Returns `none` when the path does not stay inside element
nodes. -/
def encodeFrom : DomNode → List Nat → Option (List Segment)
  | _, [] => some []
  | .text _, _ :: _ => none
  | .elem _ _ cs, i :: p => encodeList cs i p

/-- Walks to child index `i`, counting same-tag preceding element siblings
into the 1-based index of the first produced segment. -/
def encodeList : List DomNode → Nat → List Nat → Option (List Segment)
  | [], _, _ => none
  | DomNode.text _ :: _, 0, _ => none
  | DomNode.elem t a cs' :: _, 0, p =>
    (encodeFrom (DomNode.elem t a cs') p).map (fun segs => (t, 1) :: segs)
  | c :: cs, i + 1, p => (encodeList cs i p).map (bumpSeg c)

end

/-- Embedding of `generateXPath` restricted to an element target: the
produced address is the root's own segment (the root element has no
preceding siblings, so its index is 1) followed by the segments down the
path.  The source serializes this as `/tag[k]/tag[k]/...`; see
`xpathString`. -/
def generateXPathElemAt (doc : DomNode) (path : List Nat) : Option (List Segment) :=
  match doc with
  | .text _ => none
  | .elem t a cs => (encodeFrom (.elem t a cs) path).map (fun segs => (t, 1) :: segs)

/-- Embedding of `generateXPath` (storage.ts): a text-node target is replaced
by its parent element; a resolvable element target produces its structural
address. `none` stands for the unaddressable cases. -/
def generateXPathAt (doc : DomNode) (path : List Nat) : Option (List Segment) :=
  match nodeAt doc path with
  | none => none
  | some (.text _) =>
    match path with
    | [] => none
    | _ :: _ => generateXPathElemAt doc path.dropLast
  | some (.elem _ _ _) => generateXPathElemAt doc path

/-- Serialized form of a structural address, exactly the string
`generateXPath` returns: segments `tag[k]` joined by `/` with a leading
`/`. -/
def xpathString (segs : List Segment) : String :=
  "/" ++ String.intercalate "/" (segs.map (fun s => s.1 ++ "[" ++ toString s.2 ++ "]"))

/-- Shift of the head index of a path by one (used when resolution skips a
sibling). -/
def bumpPath : List Nat → List Nat
  | i :: p => (i + 1) :: p
  | [] => []

mutual

/-- Modelled from the spec: `decode(address)` — the native
`document.evaluate` used by `getElementByXPath` is not repository code; the
spec describes it as evaluating the structural address against the live
tree, never throwing.  Standard XPath semantics for a path of `tag[k]`
steps: each step selects the k-th element child with that tag name.
Returns the child-index path of the selected node. -/
def resolveNode : DomNode → List Segment → Option (List Nat)
  | _, [] => some []
  | .text _, _ :: _ => none
  | .elem _ _ cs, (t, k) :: rest => resolveList cs t k rest

/-- Selects the k-th element with tag `t` among the node list and continues
resolution below it. -/
def resolveList : List DomNode → String → Nat → List Segment → Option (List Nat)
  | [], _, _, _ => none
  | c :: cs, t, k, rest =>
    if DomNode.tagIs t c then
      match k with
      | 0 => none
      | 1 => (resolveNode c rest).map (fun p => 0 :: p)
      | k' + 2 => (resolveList cs t (k' + 1) rest).map bumpPath
    else (resolveList cs t k rest).map bumpPath

end

/-- Resolution of a structural address against the document: the first
segment must match the document's root element (the document node has the
root element as its only element child, so only index 1 matches). -/
def resolvePath (doc : DomNode) : List Segment → Option (List Nat)
  | [] => none
  | (t, k) :: rest =>
    match doc with
    | .text _ => none
    | .elem t' a cs => if t' = t ∧ k = 1 then resolveNode (.elem t' a cs) rest else none

/-- Embedding of `getElementByXPath` (storage.ts): the element addressed by
the structural address, or `none` when the path no longer resolves. -/
def getElementByXPath (doc : DomNode) (segs : List Segment) : Option DomNode :=
  (resolvePath doc segs).bind (fun p => nodeAt doc p)

/-- Embedding of the Highlight record (lib/types.ts).  The `xpath` field
stores the structural content of the serialized XPath string (its list of
`tag[k]` segments; `xpathString` is the serialization the source stores). -/
structure Highlight where
  id : String
  url : String
  text : String
  note : String
  startOffset : Nat
  endOffset : Nat
  xpath : List Segment
  timestamp : Nat
  color : Option String
deriving DecidableEq

/-- Embedding of TypeScript `Partial<Highlight>` as used by
`HighlightStorage.update`: every field optionally present. -/
structure HighlightPatch where
  id : Option String := none
  url : Option String := none
  text : Option String := none
  note : Option String := none
  startOffset : Option Nat := none
  endOffset : Option Nat := none
  xpath : Option (List Segment) := none
  timestamp : Option Nat := none
  color : Option (Option String) := none
deriving DecidableEq

/-- Embedding of the object spread `{ ...highlights[index], ...updates }`:
fields present in the patch override the record's fields. -/
def applyPatch (h : Highlight) (p : HighlightPatch) : Highlight :=
  { id := p.id.getD h.id
    url := p.url.getD h.url
    text := p.text.getD h.text
    note := p.note.getD h.note
    startOffset := p.startOffset.getD h.startOffset
    endOffset := p.endOffset.getD h.endOffset
    xpath := p.xpath.getD h.xpath
    timestamp := p.timestamp.getD h.timestamp
    color := p.color.getD h.color }

namespace HighlightStorage

/-- Embedding of `HighlightStorage.getByUrl`: records whose `url` field is
exactly the given URL.  The persisted list itself stands for the parsed
content of the storage slot. -/
def getByUrl (store : List Highlight) (url : String) : List Highlight :=
  store.filter (fun h => h.url = url)

/-- Embedding of `HighlightStorage.save`: append to the stored list. -/
def save (store : List Highlight) (h : Highlight) : List Highlight :=
  store ++ [h]

/-- Embedding of `HighlightStorage.delete`: keep the records whose id
differs. -/
def delete (store : List Highlight) (id : String) : List Highlight :=
  store.filter (fun h => h.id ≠ id)

/-- Embedding of `HighlightStorage.update`: find the first record with the
id (`findIndex`), merge the patch into it, write the list back; the list is
untouched when the id is absent (`index === -1`). -/
def update (store : List Highlight) (id : String) (p : HighlightPatch) : List Highlight :=
  match store.findIdx? (fun h => h.id = id) with
  | none => store
  | some i =>
    match store[i]? with
    | some h => store.set i (applyPatch h p)
    | none => store

/-- Whether `HighlightStorage.update` writes the list back to storage
(it only does when `findIndex` found the id). -/
def updateWrites (store : List Highlight) (id : String) : Bool :=
  (store.findIdx? (fun h => h.id = id)).isSome

end HighlightStorage

/-- Store operations available to the rest of the system (create on
qualifying selection, note/color edit, explicit delete). -/
inductive StoreOp where
  | save (h : Highlight)
  | del (id : String)
  | update (id : String) (p : HighlightPatch)

/-- Effect of one store operation on the persisted list. -/
def applyOp (store : List Highlight) : StoreOp → List Highlight
  | .save h => HighlightStorage.save store h
  | .del id => HighlightStorage.delete store id
  | .update id p => HighlightStorage.update store id p

/-- Effect of a sequence of store operations. -/
def applyOps (store : List Highlight) (ops : List StoreOp) : List Highlight :=
  ops.foldl applyOp store

/-- Embedding of the marker span built by `highlightTextInElement`: class
list, highlight id attribute, hover title (`note || "Click to view note"`),
inline style (`color || "#fef08a"`, radius, padding), and the highlighted
substring as its only child. -/
def markerSpan (h : Highlight) (highlighted : String) : DomNode :=
  .elem "span"
    [("class", HIGHLIGHT_CLASS ++ " cursor-pointer transition-opacity hover:opacity-80"),
     ("data-highlight-id", h.id),
     ("title", if h.note = "" then "Click to view note" else h.note),
     ("style.background-color",
       match h.color with
       | none => "#fef08a"
       | some c => if c = "" then "#fef08a" else c),
     ("style.border-radius", "2px"),
     ("style.padding", "1px 2px")]
    [.text highlighted]

/-- Embedding of the body of the matched branch of `highlightTextInElement`:
split the text-node string into before / highlighted / after at the local
offsets, and when `highlighted` is non-empty replace the text node by
before (only if non-empty), the marker span, after (only if non-empty).
Second component: whether a marker was inserted. -/
def splitNodes (h : Highlight) (s : String) (nodeStart : Nat) : List DomNode × Bool :=
  let startOffset := h.startOffset - nodeStart
  let endOffset := h.endOffset - nodeStart
  let before := jsSubstring s 0 startOffset
  let highlighted := jsSubstring s startOffset endOffset
  let after := jsSubstring s endOffset s.length
  if highlighted = "" then ([.text s], false)
  else
    ((if before = "" then [] else [DomNode.text before]) ++
       [markerSpan h highlighted] ++
       (if after = "" then [] else [DomNode.text after]),
     true)

/-- State of the text-node walk of `highlightTextInElement`: produced nodes,
running character offset, whether the loop has hit its `break`, and whether
a marker span was inserted. -/
structure HteAcc where
  nodes : List DomNode
  offset : Nat
  broke : Bool
  inserted : Bool

mutual

/-- The walk of `highlightTextInElement` over one node: a text node is the
next walker entry (matched against `nodeStart <= startOffset && endOffset <=
nodeEnd`, first match wins and breaks the loop); an element contributes its
subtree's text nodes in document order. -/
def hteNode (h : Highlight) : DomNode → Nat → Bool → Bool → HteAcc
  | .text s, off, broke, ins =>
    if broke then ⟨[.text s], off + s.length, broke, ins⟩
    else if off ≤ h.startOffset ∧ h.endOffset ≤ off + s.length then
      let r := splitNodes h s off
      ⟨r.1, off + s.length, true, r.2⟩
    else ⟨[.text s], off + s.length, false, ins⟩
  | .elem t a cs, off, broke, ins =>
    let r := hteList h cs off broke ins
    ⟨[.elem t a r.nodes], r.offset, r.broke, r.inserted⟩

/-- The walk over a sibling list, threading the running offset and the break
flag left to right. -/
def hteList (h : Highlight) : List DomNode → Nat → Bool → Bool → HteAcc
  | [], off, broke, ins => ⟨[], off, broke, ins⟩
  | c :: cs, off, broke, ins =>
    let r1 := hteNode h c off broke ins
    let r2 := hteList h cs r1.offset r1.broke r1.inserted
    ⟨r1.nodes ++ r2.nodes, r2.offset, r2.broke, r2.inserted⟩

end

/-- Embedding of `highlightTextInElement` (content script): walk the text
nodes of the element's subtree with a running offset and splice the marker
into the single text node containing the record's range.  Second component:
whether a marker was inserted. -/
def highlightTextInElement (element : DomNode) (h : Highlight) : DomNode × Bool :=
  match element with
  | .text s => (.text s, false)
  | .elem t a cs =>
    let r := hteList h cs 0 false false
    (.elem t a r.nodes, r.inserted)

/-- Embedding of one iteration of the restoration loop of
`renderHighlights`: resolve the record's address and, when an element is
found, run `highlightTextInElement` on it in place.  Second component:
whether a marker was inserted for this record. -/
def applyHighlight (doc : DomNode) (h : Highlight) : DomNode × Bool :=
  match resolvePath doc h.xpath with
  | none => (doc, false)
  | some p =>
    match nodeAt doc p with
    | some (.elem t a cs) =>
      let r := highlightTextInElement (.elem t a cs) h
      (replaceAt doc p r.1, r.2)
    | _ => (doc, false)

/-- Restoration loop over a record batch (the `highlights.forEach` of
`renderHighlights`). -/
def applyList (doc : DomNode) : List Highlight → DomNode
  | [] => doc
  | h :: hs => applyList (applyHighlight doc h).1 hs

/-- Number of records of a batch whose restoration inserts a marker. -/
def applyCount (doc : DomNode) : List Highlight → Nat
  | [] => 0
  | h :: hs =>
    (if (applyHighlight doc h).2 then 1 else 0) + applyCount (applyHighlight doc h).1 hs

/-- Embedding of JavaScript `Node.normalize()` on a child list: empty text
nodes are removed and runs of adjacent text nodes are concatenated. -/
def mergeTexts : List DomNode → List DomNode
  | [] => []
  | DomNode.text s :: rest =>
    match mergeTexts rest with
    | DomNode.text s' :: rest' =>
      if s ++ s' = "" then rest' else DomNode.text (s ++ s') :: rest'
    | rest' => if s = "" then rest' else DomNode.text s :: rest'
  | c :: rest => c :: mergeTexts rest

mutual

/-- Embedding of the unwind phase of `renderHighlights`: every element of
class HIGHLIGHT_CLASS found by `querySelectorAll` is replaced by a text node
carrying its text content, and `parent.normalize()` is then called on each
such element's parent.  Since `normalize` acts on the parent's whole
subtree, a child list is normalized exactly when the element or one of its
ancestors had a direct marker child; the flag `norm` carries that fact
downward.  The root element itself is never treated as a marker (in the
source, replacing the document element would fail). -/
def unwindGo (norm : Bool) : DomNode → DomNode
  | .text s => .text s
  | .elem t a cs =>
    let norm' := norm || cs.any isMarker
    let cs' := unwindList norm' cs
    .elem t a (if norm' then mergeTexts cs' else cs')

/-- Unwind over a child list: direct marker children collapse to their text
content (nested markers disappear inside it), other children recurse. -/
def unwindList (norm : Bool) : List DomNode → List DomNode
  | [] => []
  | c :: cs =>
    (if isMarker c then DomNode.text (textContent c) else unwindGo norm c) :: unwindList norm cs

end

/-- Embedding of `renderHighlights` (content script): unwind all existing
markers, then restore every stored record whose `url` matches the page. -/
def renderHighlights (url : String) (store : List Highlight) (doc : DomNode) : DomNode :=
  applyList (unwindGo false doc) (HighlightStorage.getByUrl store url)

/-- Number of records restored with a marker by one `renderHighlights`
pass. -/
def renderSuccessCount (url : String) (store : List Highlight) (doc : DomNode) : Nat :=
  applyCount (unwindGo false doc) (HighlightStorage.getByUrl store url)

/-- Embedding of the live selection state read by `handleMouseUp`: the
container node references are child-index paths into the document (node
identity is identity of position), `selString` is `selection.toString()`. -/
structure Selection where
  isCollapsed : Bool
  rangeCount : Nat
  selString : String
  startContainer : List Nat
  endContainer : List Nat
  startOffset : Nat
  endOffset : Nat
  commonAncestorContainer : List Nat

/-- Embedding of `handleMouseUp` (content script) combined with
`handleSaveHighlight`: the record handed to `HighlightStorage.save` on a
qualifying mouse release, or `none` when the event is ignored.  `freshId`,
`now` and `selectedColor` stand for the generated id, `Date.now()` and the
toolbar color. -/
def handleMouseUp (doc : DomNode) (isActivated : Bool) (pageUrl : String)
    (freshId : String) (now : Nat) (selectedColor : String)
    (sel : Option Selection) : Option Highlight :=
  if !isActivated then none
  else
    match sel with
    | none => none
    | some s =>
      if s.isCollapsed || s.rangeCount == 0 then none
      else
        let text := jsTrim s.selString
        if text.length < 3 then none
        else
          match nodeAt doc s.startContainer with
          | some (.text _) =>
            if s.startContainer = s.endContainer then
              some { id := freshId, url := pageUrl, text := text, note := ""
                     startOffset := s.startOffset, endOffset := s.endOffset
                     xpath := (generateXPathAt doc s.commonAncestorContainer).getD []
                     timestamp := now, color := some selectedColor }
            else none
          | _ => none

/-- Whitespace skip of the JSON grammar. -/
def skipJsonWs : List Char → List Char
  | c :: cs => if c = ' ' ∨ c = '\t' ∨ c = '\n' ∨ c = '\r' then skipJsonWs cs else c :: cs
  | [] => []

/-- Expects a fixed literal tail (used for true / false / null). -/
def expectChars : List Char → List Char → Option (List Char)
  | [], cs => some cs
  | e :: es, c :: cs => if c = e then expectChars es cs else none
  | _ :: _, [] => none

/-- Consumes a JSON string body after the opening quote (escape sequences
are skipped but not further validated). -/
def parseStringBody : List Char → Option (List Char)
  | [] => none
  | '"' :: cs => some cs
  | '\\' :: _ :: cs => parseStringBody cs
  | '\\' :: [] => none
  | _ :: cs => parseStringBody cs

/-- Characters allowed to continue a JSON number (lenient). -/
def isNumChar (c : Char) : Bool :=
  c.isDigit ∨ c = '-' ∨ c = '+' ∨ c = '.' ∨ c = 'e' ∨ c = 'E'

mutual

/-- Modelled from the spec: the success-or-throw behavior of the JS builtin
`JSON.parse` (not repository code; §7 calls its failure StoreCorrupt).
Recognizes a JSON value and returns the remaining input; `none` is a parse
error (the builtin throws).  The number and string-escape grammars are
recognized leniently, which only errs on the accepting side. -/
def parseJsonValue : Nat → List Char → Option (List Char)
  | 0, _ => none
  | fuel + 1, cs =>
    match skipJsonWs cs with
    | [] => none
    | c :: rest =>
      if c = '"' then parseStringBody rest
      else if c = '\x7b' then parseJsonMembers fuel rest true
      else if c = '[' then parseJsonElems fuel rest true
      else if c = 't' then expectChars ['r', 'u', 'e'] rest
      else if c = 'f' then expectChars ['a', 'l', 's', 'e'] rest
      else if c = 'n' then expectChars ['u', 'l', 'l'] rest
      else if c.isDigit ∨ c = '-' then some (rest.dropWhile isNumChar)
      else none

/-- Array elements after the opening bracket. -/
def parseJsonElems : Nat → List Char → Bool → Option (List Char)
  | 0, _, _ => none
  | fuel + 1, cs, first =>
    match skipJsonWs cs with
    | ']' :: rest => if first then some rest else none
    | cs' =>
      match parseJsonValue fuel cs' with
      | none => none
      | some rest =>
        match skipJsonWs rest with
        | ',' :: rest' => parseJsonElems fuel rest' false
        | ']' :: rest' => some rest'
        | _ => none

/-- Object members after the opening brace. -/
def parseJsonMembers : Nat → List Char → Bool → Option (List Char)
  | 0, _, _ => none
  | fuel + 1, cs, first =>
    match skipJsonWs cs with
    | '\x7d' :: rest => if first then some rest else none
    | '"' :: rest =>
      match parseStringBody rest with
      | none => none
      | some rest1 =>
        match skipJsonWs rest1 with
        | ':' :: rest2 =>
          match parseJsonValue fuel rest2 with
          | none => none
          | some rest3 =>
            match skipJsonWs rest3 with
            | ',' :: rest4 => parseJsonMembers fuel rest4 false
            | '\x7d' :: rest4 => some rest4
            | _ => none
        | _ => none
    | _ => none

end

/-- Whether `JSON.parse` accepts the string (no exception). -/
def jsonValid (s : String) : Bool :=
  match parseJsonValue (s.data.length + 1) s.data with
  | some rest => skipJsonWs rest = []
  | none => false

/-- Result of a JavaScript call that can throw. -/
inductive JsOutcome (α : Type) where
  | ok (val : α)
  | threw
deriving DecidableEq

/-- Embedding of `HighlightStorage.getAll` at the storage-payload level:
`data ? JSON.parse(data) : []`.  An absent payload and the empty string are
falsy and yield the literal empty array (`ok none`); otherwise `JSON.parse`
runs with no surrounding try/catch, returning its value (`ok (some s)`
stands for the parsed payload) or propagating its exception (`threw`). -/
def HighlightStorage.getAllRaw (data : Option String) : JsOutcome (Option String) :=
  match data with
  | none => .ok none
  | some s => if s = "" then .ok none else if jsonValid s then .ok (some s) else .threw

/-! Basic facts about the embedded string primitives. -/

theorem String.data_append' (a b : String) : (a ++ b).data = a.data ++ b.data := rfl

theorem String.mk_append (l₁ l₂ : List Char) :
    String.mk (l₁ ++ l₂) = String.mk l₁ ++ String.mk l₂ := rfl

theorem String.empty_append' (s : String) : "" ++ s = s := rfl

theorem String.append_empty' (s : String) : s ++ "" = s :=
  String.ext (by rw [String.data_append']; exact List.append_nil s.data)

theorem String.append_assoc' (a b c : String) : a ++ b ++ c = a ++ (b ++ c) :=
  String.ext (by simp only [String.data_append']; exact List.append_assoc _ _ _)

theorem String.eq_empty_iff (s : String) : s = "" ↔ s.data = [] := by
  constructor
  · intro h; rw [h]
  · intro h; apply String.ext; rw [h]

/-- Splitting a list at two cut points recomposes it. -/
theorem List.take_middle_drop {α : Type} (l : List α) (a b : Nat)
    (hab : a ≤ b) (_hb : b ≤ l.length) :
    l.take a ++ ((l.drop a).take (b - a) ++ l.drop b) = l := by
  have h1 : (l.drop a).take (b - a) = (l.take b).drop a := by
    rw [List.drop_take]
  have h2 : l.take a = (l.take b).take a := by
    rw [List.take_take, min_eq_left hab]
  rw [h1, h2, ← List.append_assoc, List.take_append_drop, List.take_append_drop]

theorem jsSubstring_of_le (s : String) (a b : Nat) (hab : a ≤ b) (hb : b ≤ s.length) :
    jsSubstring s a b = String.mk ((s.data.drop a).take (b - a)) := by
  have hb' : b ≤ s.data.length := hb
  have ha' : a ≤ s.data.length := le_trans hab hb'
  simp only [jsSubstring]
  rw [min_eq_left ha', min_eq_left hb', min_eq_left hab, max_eq_right hab]

theorem jsSubstring_zero (s : String) (a : Nat) (ha : a ≤ s.length) :
    jsSubstring s 0 a = String.mk (s.data.take a) := by
  rw [jsSubstring_of_le s 0 a (Nat.zero_le a) ha]
  simp

theorem jsSubstring_to_length (s : String) (b : Nat) (hb : b ≤ s.length) :
    jsSubstring s b s.length = String.mk (s.data.drop b) := by
  rw [jsSubstring_of_le s b s.length hb le_rfl]
  congr 1
  have hlen : (s.data.drop b).length = s.data.length - b := List.length_drop b s.data
  calc (s.data.drop b).take (s.length - b)
      = (s.data.drop b).take ((s.data.drop b).length) := by rw [hlen]; rfl
    _ = s.data.drop b := List.take_length (s.data.drop b)

/-- The three substrings cut at `a ≤ b` concatenate back to the string:
`before ++ highlighted ++ after = s`. -/
theorem jsSubstring_concat (s : String) (a b : Nat) (hab : a ≤ b) (hb : b ≤ s.length) :
    jsSubstring s 0 a ++ (jsSubstring s a b ++ jsSubstring s b s.length) = s := by
  have ha : a ≤ s.length := le_trans hab hb
  rw [jsSubstring_zero s a ha, jsSubstring_of_le s a b hab hb, jsSubstring_to_length s b hb]
  rw [← String.mk_append, ← String.mk_append]
  apply String.ext
  exact List.take_middle_drop s.data a b hab hb

/-! Facts about text content. -/

theorem textContent_text (s : String) : textContent (.text s) = s := rfl

theorem textContent_elem (t : String) (a : List (String × String)) (cs : List DomNode) :
    textContent (.elem t a cs) = textContentList cs := rfl

theorem textContentList_append (cs₁ cs₂ : List DomNode) :
    textContentList (cs₁ ++ cs₂) = textContentList cs₁ ++ textContentList cs₂ := by
  induction cs₁ with
  | nil => simp [textContentList, String.empty_append']
  | cons c cs ih => simp [textContentList, ih, String.append_assoc']

/-- Normalization does not change the concatenated text content. -/
theorem textContentList_mergeTexts (cs : List DomNode) :
    textContentList (mergeTexts cs) = textContentList cs := by
  induction cs with
  | nil => rfl
  | cons c cs ih =>
    cases c with
    | text s =>
      rw [mergeTexts]
      cases hm : mergeTexts cs with
      | nil =>
        rw [hm] at ih
        by_cases hs : s = ""
        · simp only [hs, if_true, textContentList, textContent_text] at *
          rw [← ih, String.empty_append']
        · simp only [hs, if_false, textContentList, textContent_text] at *
          rw [← ih]
      | cons c' rest' =>
        cases c' with
        | text s' =>
          rw [hm] at ih
          simp only [textContentList, textContent_text] at ih
          by_cases hss : s ++ s' = ""
          · have hdata : s.data ++ s'.data = [] := by
              have h0 := (String.eq_empty_iff (s ++ s')).mp hss
              rwa [String.data_append'] at h0
            have hs : s = "" := (String.eq_empty_iff s).mpr (List.append_eq_nil.mp hdata).1
            have hs' : s' = "" := (String.eq_empty_iff s').mpr (List.append_eq_nil.mp hdata).2
            simp only [hss, if_true, textContentList, textContent_text]
            rw [← ih, hs, hs', String.empty_append', String.empty_append']
          · simp only [hss, if_false, textContentList, textContent_text]
            rw [← ih, String.append_assoc']
        | elem t a cs'' =>
          rw [hm] at ih
          simp only [textContentList] at ih
          by_cases hs : s = ""
          · simp only [hs, if_true, textContentList, textContent_text]
            rw [ih, String.empty_append']
          · simp only [hs, if_false, textContentList, textContent_text]
            rw [ih]
    | elem t a cs' =>
      have hm : mergeTexts (DomNode.elem t a cs' :: cs) = DomNode.elem t a cs' :: mergeTexts cs := by
        rw [mergeTexts]
        · intro s h
          exact DomNode.noConfusion h
      rw [hm]
      simp only [textContentList]
      rw [ih]

mutual

/-- Unwinding markers does not change the concatenated text content. -/
theorem textContent_unwindGo : ∀ (b : Bool) (d : DomNode),
    textContent (unwindGo b d) = textContent d
  | _, .text _ => rfl
  | b, .elem t a cs => by
    simp only [unwindGo, textContent_elem]
    cases hno : (b || cs.any isMarker)
    · simp only [if_false, Bool.false_eq_true, textContentList_unwindList _ cs]
    · simp only [if_true, textContentList_mergeTexts, textContentList_unwindList _ cs]

theorem textContentList_unwindList : ∀ (b : Bool) (cs : List DomNode),
    textContentList (unwindList b cs) = textContentList cs
  | _, [] => rfl
  | b, c :: cs => by
    rw [unwindList, textContentList, textContentList_unwindList b cs]
    cases hc : isMarker c
    · simp only [if_false, Bool.false_eq_true, textContent_unwindGo b c, textContentList]
    · simp only [if_true, textContent_text, textContentList]

end

theorem String.length_eq_data (s : String) : s.length = s.data.length := rfl

theorem String.length_append' (a b : String) :
    (a ++ b).length = a.length + b.length := by
  simp only [String.length_eq_data, String.data_append', List.length_append]

/-- The marker span built by the engine is a marker (its class list contains
HIGHLIGHT_CLASS). -/
theorem isMarker_markerSpan (h : Highlight) (hl : String) :
    isMarker (markerSpan h hl) = true := rfl

theorem countMarkers_markerSpan (h : Highlight) (hl : String) :
    countMarkers (markerSpan h hl) = 1 := rfl

theorem textContent_markerSpan (h : Highlight) (hl : String) :
    textContent (markerSpan h hl) = hl := by
  show textContentList [DomNode.text hl] = hl
  simp only [textContentList, textContent_text, String.append_empty']

/-- Marker status of an element only depends on its attributes. -/
theorem isMarker_elem_congr (t t' : String) (a : List (String × String))
    (cs cs' : List DomNode) :
    isMarker (.elem t a cs) = isMarker (.elem t' a cs') := rfl

theorem textContentList_ifEmpty (x : String) :
    textContentList (if x = "" then [] else [DomNode.text x]) = x := by
  by_cases hx : x = ""
  · simp only [hx, if_true]; rfl
  · simp only [hx, if_false, textContentList, textContent_text, String.append_empty']

/-- The split of the matched text node preserves its text. -/
theorem textContentList_splitNodes (h : Highlight) (s : String) (ns : Nat)
    (h1 : ns ≤ h.startOffset) (h2 : h.startOffset ≤ h.endOffset)
    (h3 : h.endOffset ≤ ns + s.length) :
    textContentList (splitNodes h s ns).1 = s := by
  have hab : h.startOffset - ns ≤ h.endOffset - ns := Nat.sub_le_sub_right h2 ns
  have hb : h.endOffset - ns ≤ s.length := by omega
  simp only [splitNodes]
  by_cases hempty : jsSubstring s (h.startOffset - ns) (h.endOffset - ns) = ""
  · simp only [hempty, if_true, textContentList, textContent_text, String.append_empty']
  · simp only [hempty, if_false]
    rw [textContentList_append, textContentList_append, textContentList_ifEmpty,
      textContentList_ifEmpty]
    rw [show textContentList [markerSpan h (jsSubstring s (h.startOffset - ns) (h.endOffset - ns))]
        = jsSubstring s (h.startOffset - ns) (h.endOffset - ns) by
      simp only [textContentList, textContent_markerSpan, String.append_empty']]
    rw [String.append_assoc']
    exact jsSubstring_concat s (h.startOffset - ns) (h.endOffset - ns) hab hb

theorem countMarkersList_append (a b : List DomNode) :
    countMarkersList (a ++ b) = countMarkersList a + countMarkersList b := by
  induction a with
  | nil => simp [countMarkersList]
  | cons c cs ih => simp [countMarkersList, ih]; omega

theorem countMarkersList_ifEmpty (x : String) :
    countMarkersList (if x = "" then [] else [DomNode.text x]) = 0 := by
  by_cases hx : x = "" <;> simp [hx, countMarkersList, countMarkers]

/-- The split inserts exactly one marker when it reports an insertion and
none otherwise. -/
theorem countMarkersList_splitNodes (h : Highlight) (s : String) (ns : Nat) :
    countMarkersList (splitNodes h s ns).1 = if (splitNodes h s ns).2 then 1 else 0 := by
  simp only [splitNodes]
  by_cases hempty : jsSubstring s (h.startOffset - ns) (h.endOffset - ns) = ""
  · simp only [hempty, if_true]; rfl
  · simp only [hempty, if_false]
    rw [countMarkersList_append, countMarkersList_append, countMarkersList_ifEmpty,
      countMarkersList_ifEmpty]
    simp [countMarkersList, countMarkers_markerSpan]

mutual

/-- Once the walk has hit its break, nodes pass through unchanged. -/
theorem hteNode_broke (h : Highlight) : ∀ (c : DomNode) (off : Nat) (i : Bool),
    hteNode h c off true i = ⟨[c], off + (textContent c).length, true, i⟩
  | .text s, off, i => by simp [hteNode, textContent_text]
  | .elem t a cs, off, i => by
    simp only [hteNode, hteList_broke h cs off i, textContent_elem]

theorem hteList_broke (h : Highlight) : ∀ (cs : List DomNode) (off : Nat) (i : Bool),
    hteList h cs off true i = ⟨cs, off + (textContentList cs).length, true, i⟩
  | [], off, i => by simp [hteList, textContentList]
  | c :: cs, off, i => by
    simp only [hteList, hteNode_broke h c off i, hteList_broke h cs _ i, textContentList,
      String.length_append', List.singleton_append, Nat.add_assoc]

end

mutual

/-- The walk advances the running offset by the length of the text it
passes. -/
theorem hteNode_offset (h : Highlight) : ∀ (c : DomNode) (off : Nat) (b i : Bool),
    (hteNode h c off b i).offset = off + (textContent c).length
  | .text s, off, b, i => by
    simp only [hteNode, textContent_text]
    by_cases hb : b = true
    · simp [hb]
    · simp only [Bool.not_eq_true] at hb
      subst hb
      by_cases hc : off ≤ h.startOffset ∧ h.endOffset ≤ off + s.length <;> simp [hc]
  | .elem t a cs, off, b, i => by
    simp only [hteNode, hteList_offset h cs off b i, textContent_elem]

theorem hteList_offset (h : Highlight) : ∀ (cs : List DomNode) (off : Nat) (b i : Bool),
    (hteList h cs off b i).offset = off + (textContentList cs).length
  | [], off, b, i => by simp [hteList, textContentList]
  | c :: cs, off, b, i => by
    simp only [hteList, hteList_offset h cs _ _ _, hteNode_offset h c off b i,
      textContentList, String.length_append']
    omega

end

theorem splitNodes_noinsert (h : Highlight) (s : String) (ns : Nat)
    (hins : (splitNodes h s ns).2 = false) : (splitNodes h s ns).1 = [.text s] := by
  by_cases hempty : jsSubstring s (h.startOffset - ns) (h.endOffset - ns) = ""
  · simp only [splitNodes, hempty, if_true]
  · simp only [splitNodes, hempty, if_false] at hins
    exact absurd hins (by decide)

mutual

/-- The walk breaks as soon as it inserts (insertion implies break). -/
theorem hteNode_inv (h : Highlight) : ∀ (c : DomNode) (off : Nat) (b i : Bool),
    (i = true → b = true) →
    ((hteNode h c off b i).inserted = true → (hteNode h c off b i).broke = true)
  | .text s, off, b, i, hbi => by
    by_cases hb : b = true
    · subst hb
      rw [hteNode_broke h (.text s) off i]
      intro _
      rfl
    · simp only [Bool.not_eq_true] at hb
      subst hb
      have hi : i = false := by
        cases i
        · rfl
        · exact absurd (hbi rfl) (by simp)
      subst hi
      simp only [hteNode]
      by_cases hc : off ≤ h.startOffset ∧ h.endOffset ≤ off + s.length
      · simp [hc]
      · simp [hc]
  | .elem t a cs, off, b, i, hbi => by
    simp only [hteNode]
    exact hteList_inv h cs off b i hbi

theorem hteList_inv (h : Highlight) : ∀ (cs : List DomNode) (off : Nat) (b i : Bool),
    (i = true → b = true) →
    ((hteList h cs off b i).inserted = true → (hteList h cs off b i).broke = true)
  | [], _, _, _, hbi => by simp only [hteList]; exact hbi
  | c :: cs, off, b, i, hbi => by
    simp only [hteList]
    exact hteList_inv h cs _ _ _ (hteNode_inv h c off b i hbi)

end

mutual

/-- The restoration walk preserves the concatenated text of the subtree it
rewrites (records with `startOffset ≤ endOffset`). -/
theorem textContent_hteNode (h : Highlight) (hle : h.startOffset ≤ h.endOffset) :
    ∀ (c : DomNode) (off : Nat) (b i : Bool),
      textContentList (hteNode h c off b i).nodes = textContent c
  | .text s, off, b, i => by
    by_cases hb : b = true
    · subst hb
      rw [hteNode_broke h (.text s) off i]
      simp [textContentList, textContent_text, String.append_empty']
    · simp only [Bool.not_eq_true] at hb
      subst hb
      simp only [hteNode]
      by_cases hc : off ≤ h.startOffset ∧ h.endOffset ≤ off + s.length
      · simp only [hc, if_true]
        exact textContentList_splitNodes h s off hc.1 hle hc.2
      · simp [hc, textContentList, textContent_text, String.append_empty']
  | .elem t a cs, off, b, i => by
    simp only [hteNode]
    show textContentList [DomNode.elem t a (hteList h cs off b i).nodes] = _
    simp only [textContentList, textContent_elem, String.append_empty',
      textContent_hteList h hle cs off b i]

theorem textContent_hteList (h : Highlight) (hle : h.startOffset ≤ h.endOffset) :
    ∀ (cs : List DomNode) (off : Nat) (b i : Bool),
      textContentList (hteList h cs off b i).nodes = textContentList cs
  | [], _, _, _ => rfl
  | c :: cs, off, b, i => by
    simp only [hteList, textContentList_append, textContentList]
    rw [textContent_hteNode h hle c off b i, textContent_hteList h hle cs _ _ _]

end

mutual

/-- A walk that inserts nothing leaves the subtree unchanged. -/
theorem hteNode_noinsert (h : Highlight) : ∀ (c : DomNode) (off : Nat) (b i : Bool),
    (i = true → b = true) → (hteNode h c off b i).inserted = false →
    (hteNode h c off b i).nodes = [c]
  | .text s, off, b, i, hbi, hins => by
    by_cases hb : b = true
    · subst hb
      rw [hteNode_broke h (.text s) off i]
    · simp only [Bool.not_eq_true] at hb
      subst hb
      simp only [hteNode] at hins ⊢
      by_cases hc : off ≤ h.startOffset ∧ h.endOffset ≤ off + s.length
      · simp only [hc, if_true] at hins ⊢
        exact splitNodes_noinsert h s off hins
      · simp [hc]
  | .elem t a cs, off, b, i, hbi, hins => by
    simp only [hteNode] at hins ⊢
    rw [hteList_noinsert h cs off b i hbi hins]

theorem hteList_noinsert (h : Highlight) : ∀ (cs : List DomNode) (off : Nat) (b i : Bool),
    (i = true → b = true) → (hteList h cs off b i).inserted = false →
    (hteList h cs off b i).nodes = cs
  | [], _, _, _, _, _ => rfl
  | c :: cs, off, b, i, hbi, hins => by
    simp only [hteList] at hins ⊢
    have h1 : (hteNode h c off b i).inserted = false := by
      cases hni : (hteNode h c off b i).inserted
      · rfl
      · exfalso
        have hbk : (hteNode h c off b i).broke = true := hteNode_inv h c off b i hbi hni
        rw [hbk, hni, hteList_broke h cs _ true] at hins
        exact Bool.noConfusion hins
    rw [h1] at hins ⊢
    rw [hteNode_noinsert h c off b i hbi h1,
      hteList_noinsert h cs _ _ false (fun hf => absurd hf (by decide)) hins]
    rfl

end

mutual

/-- The walk adds exactly one marker when it inserts (counted against the
incoming inserted flag). -/
theorem countMarkers_hteNode (h : Highlight) : ∀ (c : DomNode) (off : Nat) (b i : Bool),
    (i = true → b = true) →
    countMarkersList (hteNode h c off b i).nodes + (if i then 1 else 0)
      = countMarkers c + (if (hteNode h c off b i).inserted then 1 else 0)
  | .text s, off, b, i, hbi => by
    by_cases hb : b = true
    · subst hb
      rw [hteNode_broke h (.text s) off i]
      simp [countMarkersList, countMarkers]
    · simp only [Bool.not_eq_true] at hb
      subst hb
      have hi : i = false := by
        cases i
        · rfl
        · exact absurd (hbi rfl) (by simp)
      subst hi
      simp only [hteNode, Bool.false_eq_true, if_false]
      by_cases hc : off ≤ h.startOffset ∧ h.endOffset ≤ off + s.length
      · rw [if_pos hc]
        show countMarkersList (splitNodes h s off).1 + 0 = _
        rw [countMarkersList_splitNodes h s off]
        simp [countMarkers]
      · rw [if_neg hc]
        simp [countMarkersList, countMarkers]
  | .elem t a cs, off, b, i, hbi => by
    simp only [hteNode]
    have ih := countMarkers_hteList h cs off b i hbi
    show countMarkersList [DomNode.elem t a (hteList h cs off b i).nodes] + _ = _
    have hcm : ∀ (xs : List DomNode),
        countMarkersList [DomNode.elem t a xs]
          = (if isMarker (DomNode.elem t a cs) then 1 else 0) + countMarkersList xs := by
      intro xs
      show countMarkers (DomNode.elem t a xs) + countMarkersList [] = _
      rw [countMarkers, isMarker_elem_congr t t a xs cs]
      simp [countMarkersList]
    rw [hcm, countMarkers]
    omega

theorem countMarkers_hteList (h : Highlight) : ∀ (cs : List DomNode) (off : Nat) (b i : Bool),
    (i = true → b = true) →
    countMarkersList (hteList h cs off b i).nodes + (if i then 1 else 0)
      = countMarkersList cs + (if (hteList h cs off b i).inserted then 1 else 0)
  | [], _, _, _, _ => by simp [hteList, countMarkersList]
  | c :: cs, off, b, i, hbi => by
    simp only [hteList]
    have ih1 := countMarkers_hteNode h c off b i hbi
    have ih2 := countMarkers_hteList h cs (hteNode h c off b i).offset
      (hteNode h c off b i).broke (hteNode h c off b i).inserted
      (hteNode_inv h c off b i hbi)
    show countMarkersList ((hteNode h c off b i).nodes ++ _) + _ = _
    rw [countMarkersList_append]
    simp only [countMarkersList]
    omega

end

mutual

/-- Writing back the subtree that is already there changes nothing. -/
theorem replaceAt_self : ∀ (d : DomNode) (p : List Nat) (E : DomNode),
    nodeAt d p = some E → replaceAt d p E = d
  | d, [], E, hE => by
    rw [nodeAt, Option.some_inj] at hE
    rw [replaceAt, hE]
  | .text _, _ :: _, _, hE => by
    rw [nodeAt] at hE
    exact Option.noConfusion hE
  | .elem t a cs, i :: p, E, hE => by
    rw [nodeAt] at hE
    cases hci : cs[i]? with
    | none => rw [hci] at hE; exact Option.noConfusion hE
    | some c =>
      rw [hci] at hE
      rw [replaceAt, replaceAtList_self cs i p E c hci hE]

theorem replaceAtList_self : ∀ (cs : List DomNode) (i : Nat) (p : List Nat) (E c : DomNode),
    cs[i]? = some c → nodeAt c p = some E → replaceAtList cs i p E = cs
  | [], _, _, _, _, hci, _ => by simp at hci
  | c' :: cs, 0, p, E, c, hci, hE => by
    simp only [List.getElem?_cons_zero, Option.some_inj] at hci
    subst hci
    rw [replaceAtList, replaceAt_self c' p E hE]
  | c' :: cs, i + 1, p, E, c, hci, hE => by
    simp only [List.getElem?_cons_succ] at hci
    rw [replaceAtList, replaceAtList_self cs i p E c hci hE]

end

mutual

/-- Replacing a subtree by one with the same text content preserves the
document's text content. -/
theorem textContent_replaceAt : ∀ (d : DomNode) (p : List Nat) (E X : DomNode),
    nodeAt d p = some E → textContent X = textContent E →
    textContent (replaceAt d p X) = textContent d
  | d, [], E, X, hE, hX => by
    rw [nodeAt, Option.some_inj] at hE
    rw [replaceAt, hX, hE]
  | .text _, _ :: _, _, _, hE, _ => by
    rw [nodeAt] at hE
    exact Option.noConfusion hE
  | .elem t a cs, i :: p, E, X, hE, hX => by
    rw [nodeAt] at hE
    cases hci : cs[i]? with
    | none => rw [hci] at hE; exact Option.noConfusion hE
    | some c =>
      rw [hci] at hE
      rw [replaceAt, textContent_elem, textContent_elem,
        textContentList_replaceAtList cs i p E X c hci hE hX]

theorem textContentList_replaceAtList : ∀ (cs : List DomNode) (i : Nat) (p : List Nat)
    (E X c : DomNode), cs[i]? = some c → nodeAt c p = some E → textContent X = textContent E →
    textContentList (replaceAtList cs i p X) = textContentList cs
  | [], _, _, _, _, _, hci, _, _ => by simp at hci
  | c' :: cs, 0, p, E, X, c, hci, hE, hX => by
    simp only [List.getElem?_cons_zero, Option.some_inj] at hci
    subst hci
    rw [replaceAtList, textContentList, textContentList,
      textContent_replaceAt c' p E X hE hX]
  | c' :: cs, i + 1, p, E, X, c, hci, hE, hX => by
    simp only [List.getElem?_cons_succ] at hci
    rw [replaceAtList, textContentList, textContentList,
      textContentList_replaceAtList cs i p E X c hci hE hX]

end

mutual

/-- Marker balance of a subtree replacement. -/
theorem countMarkers_replaceAt : ∀ (d : DomNode) (p : List Nat) (E X : DomNode),
    nodeAt d p = some E →
    countMarkers (replaceAt d p X) + countMarkers E = countMarkers d + countMarkers X
  | d, [], E, X, hE => by
    rw [nodeAt, Option.some_inj] at hE
    rw [replaceAt, hE]
    omega
  | .text _, _ :: _, _, _, hE => by
    rw [nodeAt] at hE
    exact Option.noConfusion hE
  | .elem t a cs, i :: p, E, X, hE => by
    rw [nodeAt] at hE
    cases hci : cs[i]? with
    | none => rw [hci] at hE; exact Option.noConfusion hE
    | some c =>
      rw [hci] at hE
      rw [replaceAt, countMarkers, countMarkers,
        isMarker_elem_congr t t a (replaceAtList cs i p X) cs]
      have hl := countMarkersList_replaceAtList cs i p E X c hci hE
      omega

theorem countMarkersList_replaceAtList : ∀ (cs : List DomNode) (i : Nat) (p : List Nat)
    (E X c : DomNode), cs[i]? = some c → nodeAt c p = some E →
    countMarkersList (replaceAtList cs i p X) + countMarkers E
      = countMarkersList cs + countMarkers X
  | [], _, _, _, _, _, hci, _ => by simp at hci
  | c' :: cs, 0, p, E, X, c, hci, hE => by
    simp only [List.getElem?_cons_zero, Option.some_inj] at hci
    subst hci
    rw [replaceAtList, countMarkersList, countMarkersList]
    have hn := countMarkers_replaceAt c' p E X hE
    omega
  | c' :: cs, i + 1, p, E, X, c, hci, hE => by
    simp only [List.getElem?_cons_succ] at hci
    rw [replaceAtList, countMarkersList, countMarkersList]
    have hl := countMarkersList_replaceAtList cs i p E X c hci hE
    omega

end

/-- Lemma: `highlightTextInElement` preserves the text content of the element. -/
theorem textContent_highlightTextInElement (E : DomNode) (h : Highlight)
    (hle : h.startOffset ≤ h.endOffset) :
    textContent (highlightTextInElement E h).1 = textContent E := by
  cases E with
  | text s => rfl
  | elem t a cs =>
    simp only [highlightTextInElement, textContent_elem]
    exact textContent_hteList h hle cs 0 false false

theorem countMarkers_elem (t : String) (a : List (String × String)) (cs : List DomNode) :
    countMarkers (.elem t a cs)
      = (if isMarker (.elem t a cs) then 1 else 0) + countMarkersList cs := rfl

theorem applyHighlight_not_found (doc : DomNode) (h : Highlight)
    (hrp : resolvePath doc h.xpath = none) : applyHighlight doc h = (doc, false) := by
  simp only [applyHighlight, hrp]

theorem applyHighlight_dangling (doc : DomNode) (h : Highlight) (p : List Nat)
    (hrp : resolvePath doc h.xpath = some p) (hna : nodeAt doc p = none) :
    applyHighlight doc h = (doc, false) := by
  simp only [applyHighlight, hrp, hna]

theorem applyHighlight_at_text (doc : DomNode) (h : Highlight) (p : List Nat) (s : String)
    (hrp : resolvePath doc h.xpath = some p) (hna : nodeAt doc p = some (.text s)) :
    applyHighlight doc h = (doc, false) := by
  simp only [applyHighlight, hrp, hna]

theorem applyHighlight_at_elem (doc : DomNode) (h : Highlight) (p : List Nat)
    (t : String) (a : List (String × String)) (cs : List DomNode)
    (hrp : resolvePath doc h.xpath = some p) (hna : nodeAt doc p = some (.elem t a cs)) :
    applyHighlight doc h
      = (replaceAt doc p (highlightTextInElement (.elem t a cs) h).1,
         (highlightTextInElement (.elem t a cs) h).2) := by
  simp only [applyHighlight, hrp, hna]

/-- Restoring one record never changes the document's text content
(records with `startOffset ≤ endOffset`). -/
theorem textContent_applyHighlight (doc : DomNode) (h : Highlight)
    (hle : h.startOffset ≤ h.endOffset) :
    textContent (applyHighlight doc h).1 = textContent doc := by
  cases hrp : resolvePath doc h.xpath with
  | none => rw [applyHighlight_not_found doc h hrp]
  | some p =>
    cases hna : nodeAt doc p with
    | none => rw [applyHighlight_dangling doc h p hrp hna]
    | some E =>
      cases E with
      | text s => rw [applyHighlight_at_text doc h p s hrp hna]
      | elem t a cs =>
        rw [applyHighlight_at_elem doc h p t a cs hrp hna]
        exact textContent_replaceAt doc p (.elem t a cs) _ hna
          (textContent_highlightTextInElement (.elem t a cs) h hle)

/-- A record whose restoration inserts no marker leaves the document
unchanged. -/
theorem applyHighlight_noinsert (doc : DomNode) (h : Highlight)
    (hni : (applyHighlight doc h).2 = false) : (applyHighlight doc h).1 = doc := by
  cases hrp : resolvePath doc h.xpath with
  | none => rw [applyHighlight_not_found doc h hrp]
  | some p =>
    cases hna : nodeAt doc p with
    | none => rw [applyHighlight_dangling doc h p hrp hna]
    | some E =>
      cases E with
      | text s => rw [applyHighlight_at_text doc h p s hrp hna]
      | elem t a cs =>
        rw [applyHighlight_at_elem doc h p t a cs hrp hna] at hni ⊢
        have hins : (hteList h cs 0 false false).inserted = false := hni
        show replaceAt doc p (DomNode.elem t a (hteList h cs 0 false false).nodes) = doc
        rw [hteList_noinsert h cs 0 false false (fun hf => Bool.noConfusion hf) hins]
        exact replaceAt_self doc p (.elem t a cs) hna

/-- Restoring one record adds exactly one marker on success and none on
failure. -/
theorem countMarkers_applyHighlight (doc : DomNode) (h : Highlight) :
    countMarkers (applyHighlight doc h).1
      = countMarkers doc + (if (applyHighlight doc h).2 then 1 else 0) := by
  cases hrp : resolvePath doc h.xpath with
  | none => rw [applyHighlight_not_found doc h hrp]; simp
  | some p =>
    cases hna : nodeAt doc p with
    | none => rw [applyHighlight_dangling doc h p hrp hna]; simp
    | some E =>
      cases E with
      | text s => rw [applyHighlight_at_text doc h p s hrp hna]; simp
      | elem t a cs =>
        rw [applyHighlight_at_elem doc h p t a cs hrp hna]
        show countMarkers (replaceAt doc p (DomNode.elem t a (hteList h cs 0 false false).nodes))
          = countMarkers doc + if (hteList h cs 0 false false).inserted = true then 1 else 0
        have hrepl := countMarkers_replaceAt doc p (.elem t a cs)
          (highlightTextInElement (.elem t a cs) h).1 hna
        have hw := countMarkers_hteList h cs 0 false false (fun hf => Bool.noConfusion hf)
        rw [show (highlightTextInElement (.elem t a cs) h).1
            = DomNode.elem t a (hteList h cs 0 false false).nodes from rfl] at hrepl
        rw [countMarkers_elem t a cs,
          countMarkers_elem t a (hteList h cs 0 false false).nodes,
          isMarker_elem_congr t t a (hteList h cs 0 false false).nodes cs] at hrepl
        simp only [Bool.false_eq_true, if_false, Nat.add_zero] at hw
        omega

/-- Restoring one record does not alter the root element's attributes, so
its marker status is unchanged. -/
theorem isMarker_applyHighlight (doc : DomNode) (h : Highlight) :
    isMarker (applyHighlight doc h).1 = isMarker doc := by
  cases hrp : resolvePath doc h.xpath with
  | none => rw [applyHighlight_not_found doc h hrp]
  | some p =>
    cases hna : nodeAt doc p with
    | none => rw [applyHighlight_dangling doc h p hrp hna]
    | some E =>
      cases E with
      | text s => rw [applyHighlight_at_text doc h p s hrp hna]
      | elem t a cs =>
        rw [applyHighlight_at_elem doc h p t a cs hrp hna]
        show isMarker (replaceAt doc p (DomNode.elem t a (hteList h cs 0 false false).nodes))
          = isMarker doc
        cases p with
        | nil =>
          rw [nodeAt, Option.some_inj] at hna
          rw [replaceAt, hna]
          exact isMarker_elem_congr t t a _ cs
        | cons i p' =>
          cases doc with
          | text s' => rw [nodeAt] at hna; exact Option.noConfusion hna
          | elem t0 a0 cs0 =>
            rw [replaceAt]
            exact isMarker_elem_congr t0 t0 a0 _ cs0

theorem applyList_append (d : DomNode) (xs ys : List Highlight) :
    applyList d (xs ++ ys) = applyList (applyList d xs) ys := by
  induction xs generalizing d with
  | nil => rfl
  | cons x xs ih => rw [List.cons_append, applyList, applyList, ih]

/-- A whole restoration pass preserves the document's text content. -/
theorem textContent_applyList (d : DomNode) (hs : List Highlight)
    (hle : ∀ r ∈ hs, r.startOffset ≤ r.endOffset) :
    textContent (applyList d hs) = textContent d := by
  induction hs generalizing d with
  | nil => rfl
  | cons x xs ih =>
    rw [applyList, ih _ (fun r hr => hle r (List.mem_cons_of_mem x hr)),
      textContent_applyHighlight d x (hle x (List.mem_cons_self x xs))]

/-- A whole restoration pass adds exactly one marker per successfully
restored record. -/
theorem countMarkers_applyList (d : DomNode) (hs : List Highlight) :
    countMarkers (applyList d hs) = countMarkers d + applyCount d hs := by
  induction hs generalizing d with
  | nil => simp [applyList, applyCount]
  | cons x xs ih =>
    rw [applyList, applyCount, ih, countMarkers_applyHighlight d x]
    omega

theorem isMarker_applyList (d : DomNode) (hs : List Highlight) :
    isMarker (applyList d hs) = isMarker d := by
  induction hs generalizing d with
  | nil => rfl
  | cons x xs ih => rw [applyList, ih, isMarker_applyHighlight d x]

/-- Normalization does not change the number of markers (it only touches
text nodes). -/
theorem countMarkersList_mergeTexts (cs : List DomNode) :
    countMarkersList (mergeTexts cs) = countMarkersList cs := by
  induction cs with
  | nil => rfl
  | cons c cs ih =>
    cases c with
    | text s =>
      rw [mergeTexts]
      cases hm : mergeTexts cs with
      | nil =>
        rw [hm] at ih
        by_cases hs : s = "" <;>
          simp_all [countMarkersList, countMarkers]
      | cons c' rest' =>
        rw [hm] at ih
        cases c' with
        | text s' =>
          simp only [countMarkersList, countMarkers] at ih ⊢
          by_cases hss : s ++ s' = "" <;> simp [hss, countMarkersList, countMarkers] <;> omega
        | elem t a cs'' =>
          simp only [countMarkersList, countMarkers] at ih ⊢
          by_cases hs : s = "" <;> simp [hs, countMarkersList, countMarkers] <;> omega
    | elem t a cs' =>
      have hm : mergeTexts (DomNode.elem t a cs' :: cs) = DomNode.elem t a cs' :: mergeTexts cs := by
        rw [mergeTexts]
        · intro s h
          exact DomNode.noConfusion h
      rw [hm]
      simp only [countMarkersList]
      rw [ih]

mutual

/-- After the unwind phase no marker is left anywhere below the root. -/
theorem countMarkers_unwindGo : ∀ (b : Bool) (d : DomNode), isMarker d = false →
    countMarkers (unwindGo b d) = 0
  | _, .text _, _ => rfl
  | b, .elem t a cs, hm => by
    simp only [unwindGo]
    cases hno : (b || cs.any isMarker)
    · simp only [Bool.false_eq_true, if_false, countMarkers_elem,
        isMarker_elem_congr t t a (unwindList false cs) cs, hm, countMarkersList_unwindList false cs]
    · simp only [if_true, countMarkers_elem, countMarkersList_mergeTexts,
        isMarker_elem_congr t t a (mergeTexts (unwindList true cs)) cs, hm,
        countMarkersList_unwindList true cs]
      simp

theorem countMarkersList_unwindList : ∀ (b : Bool) (cs : List DomNode),
    countMarkersList (unwindList b cs) = 0
  | _, [] => rfl
  | b, c :: cs => by
    rw [unwindList]
    cases hc : isMarker c with
    | false =>
      simp only [Bool.false_eq_true, if_false, countMarkersList,
        countMarkers_unwindGo b c hc, countMarkersList_unwindList b cs]
    | true =>
      simp only [if_true, countMarkersList, countMarkersList_unwindList b cs]
      rfl

end

/-- Unwinding does not alter the root's attributes, so its marker status is
unchanged. -/
theorem isMarker_unwindGo (b : Bool) (d : DomNode) :
    isMarker (unwindGo b d) = isMarker d := by
  cases d with
  | text s => rfl
  | elem t a cs =>
    simp only [unwindGo]
    cases hno : (b || cs.any isMarker)
    · simp only [Bool.false_eq_true, if_false]
      exact isMarker_elem_congr t t a _ cs
    · simp only [if_true]
      exact isMarker_elem_congr t t a _ cs

mutual

/-- Strings of the text nodes of a subtree in document order (the entries
the tree walker of `highlightTextInElement` visits). -/
def textPieces : DomNode → List String
  | .text s => [s]
  | .elem _ _ cs => textPiecesList cs

def textPiecesList : List DomNode → List String
  | [] => []
  | c :: cs => textPieces c ++ textPiecesList cs

end

/-- Declarative form of the scan of `highlightTextInElement`: the first text
node whose range `[nodeStart, nodeEnd)` fully contains the record's range,
with its node-start offset, walking with a running offset. -/
def firstContaining (h : Highlight) : List String → Nat → Option (String × Nat)
  | [], _ => none
  | s :: ss, off =>
    if off ≤ h.startOffset ∧ h.endOffset ≤ off + s.length then some (s, off)
    else firstContaining h ss (off + s.length)

/-- Total length of a piece list. -/
def totalLen (l : List String) : Nat := (l.map String.length).sum

theorem totalLen_nil : totalLen [] = 0 := rfl

theorem totalLen_cons (s : String) (ss : List String) :
    totalLen (s :: ss) = s.length + totalLen ss := by
  simp [totalLen]

mutual

theorem totalLen_textPieces : ∀ (c : DomNode), totalLen (textPieces c) = (textContent c).length
  | .text s => by simp [textPieces, textContent_text, totalLen]
  | .elem t a cs => by
    rw [textPieces, textContent_elem, totalLen_textPiecesList cs]

theorem totalLen_textPiecesList : ∀ (cs : List DomNode),
    totalLen (textPiecesList cs) = (textContentList cs).length
  | [] => rfl
  | c :: cs => by
    rw [textPiecesList, textContentList, String.length_append']
    simp only [totalLen, List.map_append, List.sum_append]
    rw [← totalLen, ← totalLen, totalLen_textPieces c, totalLen_textPiecesList cs]

end

theorem firstContaining_append (h : Highlight) (l1 l2 : List String) (off : Nat) :
    firstContaining h (l1 ++ l2) off
      = match firstContaining h l1 off with
        | some r => some r
        | none => firstContaining h l2 (off + totalLen l1) := by
  induction l1 generalizing off with
  | nil => simp [firstContaining, totalLen]
  | cons s ss ih =>
    simp only [List.cons_append, firstContaining]
    by_cases hc : off ≤ h.startOffset ∧ h.endOffset ≤ off + s.length
    · rw [if_pos hc, if_pos hc]
    · rw [if_neg hc, if_neg hc]
      rw [show ss.append l2 = ss ++ l2 from rfl, ih]
      rw [show off + s.length + totalLen ss = off + totalLen (s :: ss) by
        rw [totalLen_cons]; omega]

mutual

/-- The break/insert outcome of the walk is decided by the first text node
containing the record's range. -/
theorem hteNode_scan (h : Highlight) : ∀ (c : DomNode) (off : Nat),
    ((hteNode h c off false false).broke, (hteNode h c off false false).inserted)
      = (match firstContaining h (textPieces c) off with
         | none => (false, false)
         | some r => (true, (splitNodes h r.1 r.2).2))
  | .text s, off => by
    simp only [hteNode, Bool.false_eq_true, if_false, textPieces, firstContaining]
    by_cases hc : off ≤ h.startOffset ∧ h.endOffset ≤ off + s.length
    · rw [if_pos hc, if_pos hc]
    · rw [if_neg hc, if_neg hc]
  | .elem t a cs, off => by
    simp only [hteNode, textPieces]
    exact hteList_scan h cs off

theorem hteList_scan (h : Highlight) : ∀ (cs : List DomNode) (off : Nat),
    ((hteList h cs off false false).broke, (hteList h cs off false false).inserted)
      = (match firstContaining h (textPiecesList cs) off with
         | none => (false, false)
         | some r => (true, (splitNodes h r.1 r.2).2))
  | [], off => by simp [hteList, textPiecesList, firstContaining]
  | c :: cs, off => by
    simp only [hteList, textPiecesList]
    rw [firstContaining_append h (textPieces c) (textPiecesList cs) off]
    have hn := hteNode_scan h c off
    cases hfc : firstContaining h (textPieces c) off with
    | some r =>
      rw [hfc] at hn
      have hb : (hteNode h c off false false).broke = true :=
        congrArg Prod.fst hn
      have hi : (hteNode h c off false false).inserted = (splitNodes h r.1 r.2).2 :=
        congrArg Prod.snd hn
      rw [hb, hi, hteList_broke h cs (hteNode h c off false false).offset
        ((splitNodes h r.1 r.2).2)]
    | none =>
      rw [hfc] at hn
      have hb : (hteNode h c off false false).broke = false :=
        congrArg Prod.fst hn
      have hi : (hteNode h c off false false).inserted = false :=
        congrArg Prod.snd hn
      rw [hb, hi, hteNode_offset h c off false false,
        show off + (textContent c).length = off + totalLen (textPieces c) by
          rw [totalLen_textPieces c]]
      exact hteList_scan h cs (off + totalLen (textPieces c))

end

/-- Success of the in-element restoration, in declarative form. -/
theorem highlightTextInElement_flag (t : String) (a : List (String × String))
    (cs : List DomNode) (h : Highlight) :
    (highlightTextInElement (.elem t a cs) h).2
      = (match firstContaining h (textPiecesList cs) 0 with
         | none => false
         | some r => (splitNodes h r.1 r.2).2) := by
  have hs := hteList_scan h cs 0
  show (hteList h cs 0 false false).inserted = _
  cases hfc : firstContaining h (textPiecesList cs) 0 with
  | none => rw [hfc] at hs; exact congrArg Prod.snd hs
  | some r => rw [hfc] at hs; exact congrArg Prod.snd hs

/-- The split inserts nothing exactly when the highlighted substring is
empty. -/
theorem splitNodes_flag (h : Highlight) (s : String) (ns : Nat) :
    (splitNodes h s ns).2 = false
      ↔ jsSubstring s (h.startOffset - ns) (h.endOffset - ns) = "" := by
  by_cases hempty : jsSubstring s (h.startOffset - ns) (h.endOffset - ns) = "" <;>
    simp [splitNodes, hempty]

theorem getByUrl_wf (store : List Highlight) (url : String)
    (hwf : ∀ r ∈ store, r.startOffset ≤ r.endOffset) :
    ∀ r ∈ HighlightStorage.getByUrl store url, r.startOffset ≤ r.endOffset :=
  fun r hr => hwf r (List.mem_filter.mp hr).1

/-- A full restoration pass preserves the rendered text content. -/
theorem textContent_renderHighlights (url : String) (store : List Highlight) (doc : DomNode)
    (hwf : ∀ r ∈ store, r.startOffset ≤ r.endOffset) :
    textContent (renderHighlights url store doc) = textContent doc := by
  rw [renderHighlights,
    textContent_applyList (unwindGo false doc) _ (getByUrl_wf store url hwf),
    textContent_unwindGo false doc]

/-- After a full pass the document holds exactly one marker per successfully
restored record. -/
theorem countMarkers_renderHighlights (url : String) (store : List Highlight) (doc : DomNode)
    (hroot : isMarker doc = false) :
    countMarkers (renderHighlights url store doc) = renderSuccessCount url store doc := by
  rw [renderHighlights, renderSuccessCount, countMarkers_applyList,
    countMarkers_unwindGo false doc hroot, Nat.zero_add]

theorem isMarker_renderHighlights (url : String) (store : List Highlight) (doc : DomNode) :
    isMarker (renderHighlights url store doc) = isMarker doc := by
  rw [renderHighlights, isMarker_applyList, isMarker_unwindGo]

/-- Claim C2: restoration is idempotent at the level of rendered text and
marker census — a second `renderHighlights` pass over the same record set
yields the same rendered text content as the first (both equal the original
document's text), and after each pass exactly one marker element exists per
record successfully restored in that pass, because each pass first unwinds
every previously inserted marker before re-applying.  Records satisfy the
data-model invariant `startOffset ≤ endOffset`; the document root is not
itself a marker. -/
theorem restore_pass_idempotent (url : String) (store : List Highlight) (doc : DomNode)
    (hroot : isMarker doc = false)
    (hwf : ∀ r ∈ store, r.startOffset ≤ r.endOffset) :
    textContent (renderHighlights url store (renderHighlights url store doc))
        = textContent (renderHighlights url store doc)
    ∧ countMarkers (renderHighlights url store doc) = renderSuccessCount url store doc
    ∧ countMarkers (renderHighlights url store (renderHighlights url store doc))
        = renderSuccessCount url store (renderHighlights url store doc) := by
  refine ⟨?_, ?_, ?_⟩
  · rw [textContent_renderHighlights url store (renderHighlights url store doc) hwf]
  · exact countMarkers_renderHighlights url store doc hroot
  · exact countMarkers_renderHighlights url store (renderHighlights url store doc)
      (by rw [isMarker_renderHighlights]; exact hroot)

/-- Demo document: the specification's §8 example text inside a paragraph. -/
def demoDocHello : DomNode :=
  .elem "html" [] [.elem "p" [] [.text "Hello, wonderful world"]]

/-- Demo record addressing the paragraph of `demoDocHello` at offsets 5..12. -/
def demoRecHello : Highlight :=
  { id := "a", url := "u", text := "Hello, ", note := "", startOffset := 5,
    endOffset := 12, xpath := [("html", 1), ("p", 1)], timestamp := 0, color := none }

/-- Demo document with an element whose text is split over two text nodes. -/
def demoDocSplit : DomNode :=
  .elem "html" [] [.elem "div" [] [.text "ab", .text "cd"]]

/-- Demo record whose range spans both text nodes of `demoDocSplit`. -/
def demoRecSpan : Highlight :=
  { id := "r1", url := "u", text := "abcd", note := "", startOffset := 0,
    endOffset := 4, xpath := [("html", 1), ("div", 1)], timestamp := 0, color := none }

/-- Witness for `restore_pass_idempotent` at a concrete document and record
set. -/
theorem restore_pass_idempotent_witness :
    isMarker demoDocHello = false
    ∧ (∀ r ∈ [demoRecHello], r.startOffset ≤ r.endOffset)
    ∧ countMarkers (renderHighlights "u" [demoRecHello] demoDocHello)
        = renderSuccessCount "u" [demoRecHello] demoDocHello := by
  refine ⟨by decide, by decide, ?_⟩
  exact (restore_pass_idempotent "u" [demoRecHello] demoDocHello
    (by decide) (by decide)).2.1

/-- Claim C3: a record whose restoration fails — unresolvable address, no
single text node fully containing the range, or an empty highlighted
substring — inserts no marker, leaves the document unchanged (hence its text
content unchanged), and the batch loop still processes every other record
exactly as if the failed record were absent.  (The embedding is total: no
failure throws.) -/
theorem restore_failure_skipped (doc : DomNode) (h : Highlight) :
    ((applyHighlight doc h).2 = false → (applyHighlight doc h).1 = doc)
    ∧ (resolvePath doc h.xpath = none → applyHighlight doc h = (doc, false))
    ∧ (∀ (p : List Nat) (t : String) (a : List (String × String)) (cs : List DomNode),
        resolvePath doc h.xpath = some p → nodeAt doc p = some (.elem t a cs) →
        (firstContaining h (textPiecesList cs) 0 = none → (applyHighlight doc h).2 = false)
        ∧ (∀ (s : String) (ns : Nat),
            firstContaining h (textPiecesList cs) 0 = some (s, ns) →
            jsSubstring s (h.startOffset - ns) (h.endOffset - ns) = "" →
            (applyHighlight doc h).2 = false))
    ∧ (∀ (d0 : DomNode) (pre post : List Highlight),
        (applyHighlight (applyList d0 pre) h).2 = false →
        applyList d0 (pre ++ h :: post) = applyList d0 (pre ++ post)) := by
  refine ⟨applyHighlight_noinsert doc h, applyHighlight_not_found doc h, ?_, ?_⟩
  · intro p t a cs hrp hna
    constructor
    · intro hfc
      rw [applyHighlight_at_elem doc h p t a cs hrp hna]
      show (highlightTextInElement (.elem t a cs) h).2 = false
      rw [highlightTextInElement_flag, hfc]
    · intro s ns hfc hempty
      rw [applyHighlight_at_elem doc h p t a cs hrp hna]
      show (highlightTextInElement (.elem t a cs) h).2 = false
      rw [highlightTextInElement_flag, hfc]
      exact (splitNodes_flag h s ns).mpr hempty
  · intro d0 pre post hfail
    rw [applyList_append, applyList_append, applyList,
      applyHighlight_noinsert (applyList d0 pre) h hfail]

/-- Witness for `restore_failure_skipped`: a record whose range spans the
two text nodes of its element fails and leaves the document unchanged. -/
theorem restore_failure_skipped_witness :
    (applyHighlight demoDocSplit demoRecSpan).2 = false
    ∧ (applyHighlight demoDocSplit demoRecSpan).1 = demoDocSplit := by
  constructor
  · decide
  · exact (restore_failure_skipped demoDocSplit demoRecSpan).1 (by decide)

theorem jsSubstring_ne_empty (s : String) (a b : Nat) (hab : a < b) (hb : b ≤ s.length) :
    jsSubstring s a b ≠ "" := by
  rw [jsSubstring_of_le s a b (le_of_lt hab) hb]
  intro hcon
  have hdata : ((s.data.drop a).take (b - a)) = [] := by
    have := (String.eq_empty_iff (String.mk ((s.data.drop a).take (b - a)))).mp hcon
    exact this
  have hlen : ((s.data.drop a).take (b - a)).length = min (b - a) (s.data.length - a) := by
    rw [List.length_take, List.length_drop]
  rw [hdata] at hlen
  simp only [List.length_nil] at hlen
  have hba : 0 < b - a := Nat.sub_pos_of_lt hab
  have hsa : 0 < s.data.length - a := by
    have : b ≤ s.data.length := hb
    omega
  omega

/-- Claim C5: a successful single-text-node restoration replaces the text
node by before-text, marker span, after-text — the before and after text
nodes inserted only when non-empty, the marker's text equal to the substring
`[localStart, localEnd)` of the node's text — and the concatenated text of
the replacement equals the original node text, so the containing element's
total text content is unchanged (globally: `applyHighlight` preserves
`textContent`). -/
theorem restore_splice_structure (h : Highlight) (s : String) (ns : Nat)
    (h1 : ns ≤ h.startOffset) (h2 : h.startOffset < h.endOffset)
    (h3 : h.endOffset ≤ ns + s.length) :
    (splitNodes h s ns).2 = true
    ∧ (splitNodes h s ns).1
        = (if jsSubstring s 0 (h.startOffset - ns) = "" then []
           else [DomNode.text (jsSubstring s 0 (h.startOffset - ns))])
          ++ [markerSpan h (jsSubstring s (h.startOffset - ns) (h.endOffset - ns))]
          ++ (if jsSubstring s (h.endOffset - ns) s.length = "" then []
              else [DomNode.text (jsSubstring s (h.endOffset - ns) s.length)])
    ∧ textContent (markerSpan h (jsSubstring s (h.startOffset - ns) (h.endOffset - ns)))
        = jsSubstring s (h.startOffset - ns) (h.endOffset - ns)
    ∧ textContentList (splitNodes h s ns).1 = s
    ∧ (∀ (doc : DomNode) (h' : Highlight), h'.startOffset ≤ h'.endOffset →
        textContent (applyHighlight doc h').1 = textContent doc) := by
  have hne : jsSubstring s (h.startOffset - ns) (h.endOffset - ns) ≠ "" := by
    apply jsSubstring_ne_empty
    · omega
    · omega
  refine ⟨?_, ?_, textContent_markerSpan h _, ?_, ?_⟩
  · simp only [splitNodes, hne, if_false]
  · simp only [splitNodes, hne, if_false]
  · exact textContentList_splitNodes h s ns h1 (le_of_lt h2) h3
  · exact fun doc h' hle => textContent_applyHighlight doc h' hle

/-- Witness for `restore_splice_structure` on the §8 example: node text
`"Hello, wonderful world"`, offsets 5..12. -/
theorem restore_splice_structure_witness :
    textContentList (splitNodes demoRecHello "Hello, wonderful world" 0).1
      = "Hello, wonderful world"
    ∧ textContent (applyHighlight demoDocHello demoRecHello).1 = textContent demoDocHello := by
  constructor
  · exact (restore_splice_structure demoRecHello "Hello, wonderful world" 0
      (by decide) (by decide) (by decide)).2.2.2.1
  · exact (restore_splice_structure demoRecHello "Hello, wonderful world" 0
      (by decide) (by decide) (by decide)).2.2.2.2 demoDocHello demoRecHello (by decide)

mutual

/-- The restoration walk never reads the record's `text` field. -/
theorem hteNode_text_irrel (h : Highlight) (t : String) :
    ∀ (c : DomNode) (off : Nat) (b i : Bool),
      hteNode { h with text := t } c off b i = hteNode h c off b i
  | .text s, _, _, _ => rfl
  | .elem t0 a cs, off, b, i => by
    simp only [hteNode, hteList_text_irrel h t cs off b i]

theorem hteList_text_irrel (h : Highlight) (t : String) :
    ∀ (cs : List DomNode) (off : Nat) (b i : Bool),
      hteList { h with text := t } cs off b i = hteList h cs off b i
  | [], _, _, _ => rfl
  | c :: cs, off, b, i => by
    simp only [hteList, hteNode_text_irrel h t c off b i, hteList_text_irrel h t cs _ _ _]

end

theorem highlightTextInElement_text_irrel (E : DomNode) (h : Highlight) (t : String) :
    highlightTextInElement E { h with text := t } = highlightTextInElement E h := by
  cases E with
  | text s => rfl
  | elem t0 a cs =>
    simp only [highlightTextInElement, hteList_text_irrel h t cs 0 false false]

theorem applyHighlight_text_irrel (doc : DomNode) (h : Highlight) (t : String) :
    applyHighlight doc { h with text := t } = applyHighlight doc h := by
  cases hrp : resolvePath doc h.xpath with
  | none =>
    rw [applyHighlight_not_found doc { h with text := t } hrp,
      applyHighlight_not_found doc h hrp]
  | some p =>
    cases hna : nodeAt doc p with
    | none =>
      rw [applyHighlight_dangling doc { h with text := t } p hrp hna,
        applyHighlight_dangling doc h p hrp hna]
    | some E =>
      cases E with
      | text s =>
        rw [applyHighlight_at_text doc { h with text := t } p s hrp hna,
          applyHighlight_at_text doc h p s hrp hna]
      | elem t0 a cs =>
        rw [applyHighlight_at_elem doc { h with text := t } p t0 a cs hrp hna,
          applyHighlight_at_elem doc h p t0 a cs hrp hna,
          highlightTextInElement_text_irrel (.elem t0 a cs) h t]

theorem applyList_text_irrel (d : DomNode) (hs : List Highlight) (f : Highlight → String) :
    applyList d (hs.map (fun r => { r with text := f r })) = applyList d hs := by
  induction hs generalizing d with
  | nil => rfl
  | cons x xs ih =>
    rw [List.map_cons, applyList, applyList, applyHighlight_text_irrel d x (f x), ih]

theorem getByUrl_text_irrel (store : List Highlight) (url : String) (f : Highlight → String) :
    HighlightStorage.getByUrl (store.map (fun r => { r with text := f r })) url
      = (HighlightStorage.getByUrl store url).map (fun r => { r with text := f r }) := by
  simp only [HighlightStorage.getByUrl, List.filter_map]
  rfl

/-- Claim C9: the record's `text` field is advisory and never re-validated —
changing only the `text` field of any record (pointwise, by any function)
produces an identical restored document: the marker element, its text
content and the surrounding text nodes do not depend on the stored text. -/
theorem stored_text_advisory (doc : DomNode) (h : Highlight) (t : String)
    (url : String) (store : List Highlight) (f : Highlight → String) :
    applyHighlight doc { h with text := t } = applyHighlight doc h
    ∧ renderHighlights url (store.map (fun r => { r with text := f r })) doc
        = renderHighlights url store doc := by
  refine ⟨applyHighlight_text_irrel doc h t, ?_⟩
  rw [renderHighlights, renderHighlights, getByUrl_text_irrel store url f,
    applyList_text_irrel]

theorem tagIs_self (t : String) (a : List (String × String)) (cs : List DomNode) :
    DomNode.tagIs t (.elem t a cs) = true := by
  simp [DomNode.tagIs]

theorem encodeFrom_nil (n : DomNode) : encodeFrom n [] = some [] := by
  cases n <;> rfl

theorem encodeFrom_cons (t : String) (a : List (String × String)) (cs : List DomNode)
    (i : Nat) (p : List Nat) : encodeFrom (.elem t a cs) (i :: p) = encodeList cs i p := rfl

theorem encodeList_zero_text (s : String) (cs : List DomNode) (p : List Nat) :
    encodeList (DomNode.text s :: cs) 0 p = none := rfl

theorem encodeList_zero_elem (t : String) (a : List (String × String))
    (cs' cs : List DomNode) (p : List Nat) :
    encodeList (DomNode.elem t a cs' :: cs) 0 p
      = (encodeFrom (DomNode.elem t a cs') p).map (fun segs => (t, 1) :: segs) := rfl

theorem encodeList_succ (c : DomNode) (cs : List DomNode) (i : Nat) (p : List Nat) :
    encodeList (c :: cs) (i + 1) p = (encodeList cs i p).map (bumpSeg c) := by
  cases c <;> rfl

theorem resolveNode_nil (n : DomNode) : resolveNode n [] = some [] := by
  cases n <;> rfl

theorem resolveNode_seg (t0 : String) (a0 : List (String × String)) (cs0 : List DomNode)
    (t : String) (k : Nat) (rest : List Segment) :
    resolveNode (.elem t0 a0 cs0) ((t, k) :: rest) = resolveList cs0 t k rest := rfl

theorem resolveList_cons (c : DomNode) (cs : List DomNode) (t : String) (k : Nat)
    (rest : List Segment) :
    resolveList (c :: cs) t k rest
      = if DomNode.tagIs t c then
          match k with
          | 0 => none
          | 1 => (resolveNode c rest).map (fun p => 0 :: p)
          | k' + 2 => (resolveList cs t (k' + 1) rest).map bumpPath
        else (resolveList cs t k rest).map bumpPath := rfl

mutual

/-- Encoding an element's position always succeeds, and resolving the
encoded segments leads back to exactly the same position. -/
theorem encode_resolve_node : ∀ (n : DomNode) (p : List Nat) (t : String)
    (a : List (String × String)) (cs : List DomNode),
    nodeAt n p = some (.elem t a cs) →
    ∃ segs, encodeFrom n p = some segs ∧ resolveNode n segs = some p
  | n, [], t, a, cs, hE => ⟨[], encodeFrom_nil n, resolveNode_nil n⟩
  | .text _, _ :: _, t, a, cs, hE => by
    rw [nodeAt] at hE
    exact Option.noConfusion hE
  | .elem t0 a0 cs0, i :: p, t, a, cs, hE => by
    rw [nodeAt] at hE
    cases hci : cs0[i]? with
    | none => rw [hci] at hE; exact Option.noConfusion hE
    | some c =>
      rw [hci] at hE
      obtain ⟨t', k, rest, henc, hk, hres⟩ :=
        encode_resolve_list cs0 i p t a cs c hci hE
      exact ⟨(t', k) :: rest, by rw [encodeFrom_cons]; exact henc,
        by rw [resolveNode_seg]; exact hres⟩

theorem encode_resolve_list : ∀ (cs0 : List DomNode) (i : Nat) (p : List Nat)
    (t : String) (a : List (String × String)) (cs : List DomNode) (c : DomNode),
    cs0[i]? = some c → nodeAt c p = some (.elem t a cs) →
    ∃ t' k rest, encodeList cs0 i p = some ((t', k) :: rest) ∧ 1 ≤ k
      ∧ resolveList cs0 t' k rest = some (i :: p)
  | [], i, _, _, _, _, _, hci, _ => by simp at hci
  | c0 :: cs', 0, p, t, a, cs, c, hci, hE => by
    simp only [List.getElem?_cons_zero, Option.some_inj] at hci
    subst hci
    cases hc0 : c0 with
    | text s =>
      subst hc0
      cases p with
      | nil =>
        rw [nodeAt, Option.some_inj] at hE
        exact DomNode.noConfusion hE
      | cons j p' =>
        rw [nodeAt] at hE
        exact Option.noConfusion hE
    | elem tc ac csc =>
      subst hc0
      obtain ⟨segs', henc', hres'⟩ := encode_resolve_node (.elem tc ac csc) p t a cs hE
      refine ⟨tc, 1, segs', ?_, le_rfl, ?_⟩
      · rw [encodeList_zero_elem, henc']
        rfl
      · rw [resolveList_cons, tagIs_self tc ac csc, if_pos rfl]
        show (resolveNode (DomNode.elem tc ac csc) segs').map (fun q => 0 :: q)
          = some (0 :: p)
        rw [hres']
        rfl
  | c0 :: cs', i + 1, p, t, a, cs, c, hci, hE => by
    simp only [List.getElem?_cons_succ] at hci
    obtain ⟨t', k, rest, henc, hk, hres⟩ := encode_resolve_list cs' i p t a cs c hci hE
    obtain ⟨m, rfl⟩ : ∃ m, k = m + 1 := ⟨k - 1, by omega⟩
    cases htag : DomNode.tagIs t' c0 with
    | true =>
      refine ⟨t', m + 2, rest, ?_, by omega, ?_⟩
      · rw [encodeList_succ, henc]
        show some (bumpSeg c0 ((t', m + 1) :: rest)) = _
        rw [bumpSeg, htag]
        rfl
      · rw [resolveList_cons, htag, if_pos rfl]
        show (resolveList cs' t' (m + 1) rest).map bumpPath = some ((i + 1) :: p)
        rw [hres]
        rfl
    | false =>
      refine ⟨t', m + 1, rest, ?_, by omega, ?_⟩
      · rw [encodeList_succ, henc]
        show some (bumpSeg c0 ((t', m + 1) :: rest)) = _
        rw [bumpSeg, htag]
        rfl
      · rw [resolveList_cons, htag]
        rw [if_neg (by simp)]
        show (resolveList cs' t' (m + 1) rest).map bumpPath = some ((i + 1) :: p)
        rw [hres]
        rfl

end

theorem resolvePath_cons (t0 : String) (a0 : List (String × String)) (cs0 : List DomNode)
    (t : String) (k : Nat) (rest : List Segment) :
    resolvePath (.elem t0 a0 cs0) ((t, k) :: rest)
      = if t0 = t ∧ k = 1 then resolveNode (.elem t0 a0 cs0) rest else none := rfl

/-- Claim C4: address round-trip — for every element present in the
document, resolving the address generated for it returns that element
itself (the resolved child-index path is exactly the element's position),
provided the document is unmodified between the two calls. -/
theorem address_roundtrip (doc : DomNode) (p : List Nat) (t : String)
    (a : List (String × String)) (cs : List DomNode)
    (hE : nodeAt doc p = some (.elem t a cs)) :
    ∃ addr, generateXPathAt doc p = some addr
      ∧ resolvePath doc addr = some p
      ∧ getElementByXPath doc addr = some (.elem t a cs) := by
  cases hdoc : doc with
  | text s =>
    subst hdoc
    cases p with
    | nil =>
      rw [nodeAt, Option.some_inj] at hE
      exact DomNode.noConfusion hE
    | cons i p' =>
      rw [nodeAt] at hE
      exact Option.noConfusion hE
  | elem t0 a0 cs0 =>
    subst hdoc
    obtain ⟨segs, henc, hres⟩ := encode_resolve_node (.elem t0 a0 cs0) p t a cs hE
    refine ⟨(t0, 1) :: segs, ?_, ?_, ?_⟩
    · simp only [generateXPathAt, hE, generateXPathElemAt, henc, Option.map_some']
    · rw [resolvePath_cons, if_pos ⟨rfl, rfl⟩, hres]
    · rw [getElementByXPath, resolvePath_cons, if_pos ⟨rfl, rfl⟩, hres]
      exact hE

/-- Witness for `address_roundtrip`: the paragraph of the demo document. -/
theorem address_roundtrip_witness :
    nodeAt demoDocHello [0] = some (.elem "p" [] [.text "Hello, wonderful world"])
    ∧ ∃ addr, generateXPathAt demoDocHello [0] = some addr
        ∧ resolvePath demoDocHello addr = some [0]
        ∧ getElementByXPath demoDocHello addr
            = some (.elem "p" [] [.text "Hello, wonderful world"]) := by
  refine ⟨by decide, ?_⟩
  exact address_roundtrip demoDocHello [0] "p" [] [.text "Hello, wonderful world"] (by decide)

/-- Claim C7: a HighlightRecord is handed to the store only when the
extension is active, a selection exists, it is non-collapsed with at least
one range, its trimmed text has length at least 3, and its start container
is a text node equal to its end container — in particular a selection
spanning two distinct text nodes (distinct container references) is never
persisted. -/
theorem capture_gating (doc : DomNode) (act : Bool) (url fid : String) (now : Nat)
    (color : String) (sel : Option Selection) (rec : Highlight)
    (hsave : handleMouseUp doc act url fid now color sel = some rec) :
    act = true
    ∧ ∃ s, sel = some s
        ∧ s.isCollapsed = false
        ∧ s.rangeCount ≠ 0
        ∧ 3 ≤ (jsTrim s.selString).length
        ∧ (∃ txt, nodeAt doc s.startContainer = some (.text txt))
        ∧ s.startContainer = s.endContainer := by
  rw [handleMouseUp.eq_def] at hsave
  cases act with
  | false => exact Option.noConfusion hsave
  | true =>
    simp only [Bool.not_true, Bool.false_eq_true, if_false] at hsave
    cases sel with
    | none => exact Option.noConfusion hsave
    | some s =>
      refine ⟨rfl, s, rfl, ?_⟩
      simp only [] at hsave
      by_cases hcol : (s.isCollapsed || s.rangeCount == 0) = true
      · rw [if_pos hcol] at hsave
        exact Option.noConfusion hsave
      · rw [if_neg hcol] at hsave
        simp only [Bool.or_eq_true, not_or, Bool.not_eq_true] at hcol
        obtain ⟨hcol1, hcol2⟩ := hcol
        by_cases hlen : (jsTrim s.selString).length < 3
        · rw [if_pos hlen] at hsave
          exact Option.noConfusion hsave
        · rw [if_neg hlen] at hsave
          refine ⟨hcol1, by simpa using hcol2, by omega, ?_⟩
          cases hsc : nodeAt doc s.startContainer with
          | none => rw [hsc] at hsave; exact Option.noConfusion hsave
          | some n =>
            rw [hsc] at hsave
            cases n with
            | elem t0 a0 cs0 => exact Option.noConfusion hsave
            | text txt =>
              refine ⟨⟨txt, rfl⟩, ?_⟩
              by_cases heq : s.startContainer = s.endContainer
              · exact heq
              · rw [if_neg heq] at hsave
                exact Option.noConfusion hsave

/-- Demo selection over the lone text node of `demoDocHello`'s paragraph. -/
def demoSelHello : Selection :=
  { isCollapsed := false, rangeCount := 1, selString := "wonderful"
    startContainer := [0, 0], endContainer := [0, 0]
    startOffset := 7, endOffset := 16, commonAncestorContainer := [0, 0] }

/-- Witness for `capture_gating`: a qualifying mouse release produces a
record and the extracted guards hold. -/
theorem capture_gating_witness :
    (handleMouseUp demoDocHello true "u" "id1" 7 "#fef08a" (some demoSelHello)).isSome
    ∧ (∀ rec, handleMouseUp demoDocHello true "u" "id1" 7 "#fef08a" (some demoSelHello)
          = some rec →
        demoSelHello.startContainer = demoSelHello.endContainer) := by
  constructor
  · decide
  · intro rec hrec
    obtain ⟨-, s, hs, -, -, -, -, hend⟩ :=
      capture_gating demoDocHello true "u" "id1" 7 "#fef08a" (some demoSelHello) rec hrec
    cases hs
    exact hend

/-- Demo document whose paragraph holds three text-bearing children: a text
node, a bold element, and another text node. -/
def demoDocMixed : DomNode :=
  .elem "html" [] [.elem "body" [] [.elem "p" []
    [.text "hello ", .elem "b" [] [.text "bold"], .text " world"]]]

/-- Demo selection of the characters `[1, 4)` (the string `wor`) inside the
text node `" world"` of `demoDocMixed`. -/
def demoSelWorld : Selection :=
  { isCollapsed := false, rangeCount := 1, selString := "wor"
    startContainer := [0, 0, 2], endContainer := [0, 0, 2]
    startOffset := 1, endOffset := 4, commonAncestorContainer := [0, 0, 2] }

/-- The record `handleMouseUp` persists for `demoSelWorld`. -/
def demoRecWorld : Highlight :=
  { id := "id1", url := "u", text := "wor", note := "", startOffset := 1, endOffset := 4,
    xpath := [("html", 1), ("body", 1), ("p", 1)], timestamp := 0,
    color := some "#fef08a" }

/-- Claim C1 (code bug): the persisted offsets are the node-local offsets of
the selection's text node — `range.startOffset`/`range.endOffset` — not
character offsets into the concatenated text content of the element
addressed by the record's xpath.  Here the user selects `"wor"` (offsets
`[1, 4)` of the text node `" world"`), but the stored offsets `1..4`,
interpreted in the addressed paragraph's concatenated stream
`"hello bold world"` — the stream restore scans — address `"ell"`, not the
selected `"wor"`. -/
theorem capture_offsets_not_stream_offsets :
    handleMouseUp demoDocMixed true "u" "id1" 0 "#fef08a" (some demoSelWorld)
        = some demoRecWorld
    ∧ demoRecWorld.startOffset = 1 ∧ demoRecWorld.endOffset = 4
    ∧ nodeAt demoDocMixed demoSelWorld.startContainer = some (.text " world")
    ∧ jsSubstring " world" demoSelWorld.startOffset demoSelWorld.endOffset = "wor"
    ∧ getElementByXPath demoDocMixed demoRecWorld.xpath
        = some (.elem "p" [] [.text "hello ", .elem "b" [] [.text "bold"], .text " world"])
    ∧ textContent (.elem "p" [] [.text "hello ", .elem "b" [] [.text "bold"], .text " world"])
        = "hello bold world"
    ∧ jsSubstring "hello bold world" demoRecWorld.startOffset demoRecWorld.endOffset = "ell"
    ∧ "ell" ≠ "wor" := by
  refine ⟨by decide, rfl, rfl, by decide, by decide, by decide, by decide, by decide, by decide⟩

/-- Counterexample to claim C6 as stated: a stored payload that is not
valid JSON makes `getAll` propagate the `JSON.parse` exception — `getAll`
can throw, it does not fail open to an empty collection. -/
theorem getAll_throws_on_corrupt_payload :
    HighlightStorage.getAllRaw (some "x") = JsOutcome.threw := by decide

/-- Claim C6 (amended): `getAll` returns the empty collection only when the
payload is absent or the empty string (both falsy); for any other payload
that is not valid JSON, the `JSON.parse` exception propagates out of
`getAll` (there is no surrounding try/catch), and a valid payload is
returned parsed. -/
theorem getAll_failopen_only_for_falsy :
    HighlightStorage.getAllRaw none = JsOutcome.ok none
    ∧ HighlightStorage.getAllRaw (some "") = JsOutcome.ok none
    ∧ (∀ s : String, s ≠ "" → jsonValid s = false →
        HighlightStorage.getAllRaw (some s) = JsOutcome.threw)
    ∧ (∀ s : String, s ≠ "" → jsonValid s = true →
        HighlightStorage.getAllRaw (some s) = JsOutcome.ok (some s)) := by
  refine ⟨rfl, rfl, ?_, ?_⟩
  · intro s hne hv
    simp only [HighlightStorage.getAllRaw, if_neg hne, hv, Bool.false_eq_true, if_false]
  · intro s hne hv
    simp only [HighlightStorage.getAllRaw, if_neg hne, hv, if_true]

/-- Witness for `getAll_failopen_only_for_falsy` at concrete payloads. -/
theorem getAll_failopen_only_for_falsy_witness :
    HighlightStorage.getAllRaw (some "\x7boops") = JsOutcome.threw
    ∧ HighlightStorage.getAllRaw (some "[]") = JsOutcome.ok (some "[]") := by
  constructor
  · exact getAll_failopen_only_for_falsy.2.2.1 "\x7boops" (by decide) (by decide)
  · exact getAll_failopen_only_for_falsy.2.2.2 "[]" (by decide) (by decide)

/-- Recursive characterization of `HighlightStorage.update`
(`findIndex`-then-merge): the first record with the id is patched, all later
records — matching or not — are untouched. -/
def updateFirst (id : String) (p : HighlightPatch) : List Highlight → List Highlight
  | [] => []
  | h :: t => if h.id = id then applyPatch h p :: t else h :: updateFirst id p t

theorem update_eq_updateFirst (store : List Highlight) (id : String) (p : HighlightPatch) :
    HighlightStorage.update store id p = updateFirst id p store := by
  induction store with
  | nil => rfl
  | cons c t ih =>
    rw [HighlightStorage.update, updateFirst, List.findIdx?_cons]
    by_cases hc : c.id = id
    · simp only [hc, decide_True, if_true, List.getElem?_cons_zero, List.set_cons_zero]
    · simp only [hc, decide_False, Bool.false_eq_true, if_false, List.findIdx?_succ]
      rw [HighlightStorage.update] at ih
      cases hfi : t.findIdx? (fun h => h.id = id) with
      | none =>
        rw [hfi] at ih
        have ih' : t = updateFirst id p t := ih
        simp only [Option.map_none']
        rw [← ih']
      | some j =>
        rw [hfi] at ih
        have ih' : (match t[j]? with
            | some h => t.set j (applyPatch h p)
            | none => t) = updateFirst id p t := ih
        simp only [Option.map_some']
        cases htj : t[j]? with
        | none =>
          rw [htj] at ih'
          simp only [List.getElem?_cons_succ, htj]
          rw [← ih']
        | some x =>
          rw [htj] at ih'
          simp only [List.getElem?_cons_succ, htj, List.set_cons_succ]
          rw [← ih']

theorem updateFirst_at_first_match (id : String) (p : HighlightPatch) :
    ∀ (a : List Highlight) (h : Highlight) (b : List Highlight), h.id = id →
      (∀ x ∈ a, x.id ≠ id) → updateFirst id p (a ++ h :: b) = a ++ applyPatch h p :: b := by
  intro a
  induction a with
  | nil =>
    intro h b hid _
    simp only [List.nil_append, updateFirst, hid, if_true]
  | cons c cs ih =>
    intro h b hid ha
    have hc : c.id ≠ id := ha c (List.mem_cons_self c cs)
    simp only [List.cons_append, updateFirst, hc, if_false]
    rw [show cs.append (h :: b) = cs ++ h :: b from rfl,
      ih h b hid (fun x hx => ha x (List.mem_cons_of_mem c hx))]

theorem updateFirst_no_match (id : String) (p : HighlightPatch) :
    ∀ store : List Highlight, (∀ r ∈ store, r.id ≠ id) → updateFirst id p store = store := by
  intro store
  induction store with
  | nil => intro _; rfl
  | cons c cs ih =>
    intro hall
    have hc : c.id ≠ id := hall c (List.mem_cons_self c cs)
    simp only [updateFirst, hc, if_false]
    rw [ih (fun x hx => hall x (List.mem_cons_of_mem c hx))]

/-- Claim C10: with duplicate ids in the store, `update` merges into only
the first matching record (in list order), later matching records included
in the untouched tail; `delete` removes every record with the id; with no
matching record `update` returns the list unchanged and performs no write.
-/
theorem update_first_match_delete_all (id : String) (p : HighlightPatch) :
    (∀ (a : List Highlight) (h : Highlight) (b : List Highlight), h.id = id →
      (∀ x ∈ a, x.id ≠ id) →
      HighlightStorage.update (a ++ h :: b) id p = a ++ applyPatch h p :: b)
    ∧ (∀ (store : List Highlight) (r : Highlight),
        (r ∈ HighlightStorage.delete store id → r.id ≠ id)
        ∧ (r ∈ store → r.id ≠ id → r ∈ HighlightStorage.delete store id))
    ∧ (∀ store : List Highlight, (∀ r ∈ store, r.id ≠ id) →
        HighlightStorage.update store id p = store
        ∧ HighlightStorage.updateWrites store id = false) := by
  refine ⟨?_, ?_, ?_⟩
  · intro a h b hid ha
    rw [update_eq_updateFirst, updateFirst_at_first_match id p a h b hid ha]
  · intro store r
    constructor
    · intro hr
      have := List.mem_filter.mp hr
      simpa using this.2
    · intro hr hne
      exact List.mem_filter.mpr ⟨hr, by simpa using hne⟩
  · intro store hall
    constructor
    · rw [update_eq_updateFirst, updateFirst_no_match id p store hall]
    · rw [HighlightStorage.updateWrites, List.findIdx?_isSome]
      rw [List.any_eq_false]
      intro x hx
      simpa using hall x hx

/-- Demo records and patch for the store claims. -/
def demoRecA : Highlight :=
  { id := "a", url := "u", text := "t", note := "", startOffset := 0, endOffset := 1,
    xpath := [], timestamp := 0, color := none }

/-- A second record sharing the id of `demoRecA`. -/
def demoRecA2 : Highlight := { demoRecA with note := "second" }

/-- A record with a different id. -/
def demoRecB : Highlight := { demoRecA with id := "b" }

/-- A note-only patch (the shape `HighlightTooltip` passes to `update`). -/
def demoPatchNote : HighlightPatch := { note := some "edited" }

/-- Witness for `update_first_match_delete_all`: duplicate ids, the first
match is patched and the later duplicate survives unchanged; deleting
removes both duplicates; updating an absent id writes nothing. -/
theorem update_first_match_delete_all_witness :
    HighlightStorage.update [demoRecB, demoRecA, demoRecA2] "a" demoPatchNote
        = [demoRecB, applyPatch demoRecA demoPatchNote, demoRecA2]
    ∧ (demoRecA2 ∈ HighlightStorage.delete [demoRecB, demoRecA, demoRecA2] "a" →
        demoRecA2.id ≠ "a")
    ∧ HighlightStorage.update [demoRecB] "zzz" demoPatchNote = [demoRecB]
    ∧ HighlightStorage.updateWrites [demoRecB] "zzz" = false := by
  refine ⟨?_, ?_, ?_, ?_⟩
  · exact (update_first_match_delete_all "a" demoPatchNote).1 [demoRecB] demoRecA
      [demoRecA2] (by decide) (by decide)
  · exact ((update_first_match_delete_all "a" demoPatchNote).2.1
      [demoRecB, demoRecA, demoRecA2] demoRecA2).1
  · exact (((update_first_match_delete_all "zzz" demoPatchNote).2.2 [demoRecB])
      (by decide)).1
  · exact (((update_first_match_delete_all "zzz" demoPatchNote).2.2 [demoRecB])
      (by decide)).2

theorem applyPatch_id (h : Highlight) (p : HighlightPatch) (hp : p.id = none) :
    (applyPatch h p).id = h.id := by
  simp [applyPatch, hp]

theorem updateFirst_map_id (id : String) (p : HighlightPatch) (hp : p.id = none) :
    ∀ store : List Highlight,
      (updateFirst id p store).map Highlight.id = store.map Highlight.id := by
  intro store
  induction store with
  | nil => rfl
  | cons c cs ih =>
    by_cases hc : c.id = id
    · simp only [updateFirst, hc, if_true, List.map_cons, applyPatch_id c p hp]
    · simp only [updateFirst, hc, if_false, List.map_cons, ih]

theorem update_map_id (store : List Highlight) (id : String) (p : HighlightPatch)
    (hp : p.id = none) :
    (HighlightStorage.update store id p).map Highlight.id = store.map Highlight.id := by
  rw [update_eq_updateFirst, updateFirst_map_id id p hp store]

/-- Claim C8: record ids are immutable after creation — a note/color edit
(an `update` whose patch carries no `id` field, the only mutation the system
performs) preserves the stored id list exactly, and across any sequence of
store operations whose updates carry no `id` field, every record in the
resulting store carries either an id it already had in the initial store or
the id it was created with by a `save` in the sequence. -/
theorem record_id_immutable (store : List Highlight) (ops : List StoreOp)
    (hops : ∀ (id : String) (p : HighlightPatch), StoreOp.update id p ∈ ops → p.id = none) :
    (∀ (id : String) (p : HighlightPatch), p.id = none →
      (HighlightStorage.update store id p).map Highlight.id = store.map Highlight.id)
    ∧ ∀ r ∈ applyOps store ops,
        r.id ∈ store.map Highlight.id ∨ ∃ h, StoreOp.save h ∈ ops ∧ r.id = h.id := by
  constructor
  · intro id p hp
    exact update_map_id store id p hp
  · induction ops generalizing store with
    | nil =>
      intro r hr
      rw [applyOps, List.foldl_nil] at hr
      exact Or.inl (List.mem_map_of_mem Highlight.id hr)
    | cons op ops ih =>
      intro r hr
      rw [applyOps, List.foldl_cons] at hr
      have ihr := ih (applyOp store op)
        (fun id p hm => hops id p (List.mem_cons_of_mem op hm)) r hr
      rcases ihr with hin | ⟨h, hmem, hid⟩
      · cases op with
        | save h =>
          rw [applyOp, HighlightStorage.save, List.map_append, List.mem_append] at hin
          rcases hin with hin | hin
          · exact Or.inl hin
          · simp only [List.map_cons, List.map_nil, List.mem_cons, List.not_mem_nil,
              or_false] at hin
            exact Or.inr ⟨h, List.mem_cons_self _ _, hin⟩
        | del i =>
          rw [applyOp, HighlightStorage.delete] at hin
          obtain ⟨x, hx, hxid⟩ := List.mem_map.mp hin
          exact Or.inl (hxid ▸ List.mem_map_of_mem Highlight.id (List.mem_filter.mp hx).1)
        | update i p =>
          rw [applyOp, update_map_id store i p
            (hops i p (List.mem_cons_self _ _))] at hin
          exact Or.inl hin
      · exact Or.inr ⟨h, List.mem_cons_of_mem op hmem, hid⟩

/-- Witness for `record_id_immutable`: a note edit, a delete and a save — the
surviving edited record keeps its creation id. -/
theorem record_id_immutable_witness :
    (HighlightStorage.update [demoRecA, demoRecB] "a" demoPatchNote).map Highlight.id
        = ["a", "b"]
    ∧ ∀ r ∈ applyOps [demoRecA, demoRecB]
          [StoreOp.update "a" demoPatchNote, StoreOp.del "b"],
        r.id ∈ ["a", "b"] ∨ ∃ h, StoreOp.save h
            ∈ [StoreOp.update "a" demoPatchNote, StoreOp.del "b"] ∧ r.id = h.id := by
  have hops : ∀ (id : String) (p : HighlightPatch),
      StoreOp.update id p ∈ [StoreOp.update "a" demoPatchNote, StoreOp.del "b"] →
      p.id = none := by
    intro id p hmem
    simp only [List.mem_cons, List.not_mem_nil, or_false] at hmem
    rcases hmem with heq | heq
    · cases heq
      rfl
    · exact StoreOp.noConfusion heq
  constructor
  · exact (record_id_immutable [demoRecA, demoRecB]
      [StoreOp.update "a" demoPatchNote, StoreOp.del "b"] hops).1 "a" demoPatchNote rfl
  · exact (record_id_immutable [demoRecA, demoRecB]
      [StoreOp.update "a" demoPatchNote, StoreOp.del "b"] hops).2
